import Mathlib

/-!
# Verification of the ssh-key certificate / key-data codec

A shallow embedding of `src/ssh-key/src/certificate.rs` and
`src/ssh-key/src/public/key_data.rs` (RustCrypto `formats` fork).

Conventions of the embedding:
* byte strings are `List Nat` (the numeric value of each byte);
* Rust `String` values are byte lists as well (`Ord` on Rust strings is
  byte-lexicographic, which we model with `lexLt`);
* a decoder is a function `Bytes → Except Error (α × Bytes)` returning the
  decoded value together with the unconsumed remainder of the input;
* an encoder returns `Except Error Bytes` because length prefixes are
  checked `usize → u32` conversions (`Error::Length` on overflow);
* machine integers are `Nat` with explicit bounds (`u32Lim`, `u64Lim`).

External collaborators that are not part of the two source files
(the byte reader/writer, `Algorithm`, the per-algorithm public-key bodies,
`Signature`, base64 envelope, SHA-256, signature verification) are modelled
from the specification at their interface boundary; each such definition
carries a doc comment starting with `Modelled from the spec:`.
-/

set_option maxRecDepth 100000

/-- Error type mirroring `ssh_key::Error` (the variants used by the two
source files). -/
inductive Error where
  | FormatEncoding
  | Length
  | Algorithm
  | Crypto
  | CertificateValidation
  deriving DecidableEq, Repr

/-- Byte strings: each element is the numeric value of one byte. -/
abbrev Bytes := List Nat

/-- ASCII bytes of a Lean string literal (used for the fixed wire
identifiers such as algorithm names). -/
def ascii (s : String) : Bytes := s.toList.map Char.toNat

/-- `2^32`: exclusive upper bound of `u32` (length prefixes). -/
def u32Lim : Nat := 4294967296

/-- `2^64`: exclusive upper bound of `u64` (serial, validity times). -/
def u64Lim : Nat := 18446744073709551616

/-- Byte-lexicographic strict order on byte strings; mirrors Rust's
`Ord` on `String`/`[u8]` (`prev_name.cmp(&name) == Ordering::Less`). -/
def lexLt : Bytes → Bytes → Bool
  | [], [] => false
  | [], _ :: _ => true
  | _ :: _, [] => false
  | a :: as, b :: bs => a < b || (a == b && lexLt as bs)

/-! ## Wire primitives

Modelled from the spec (§6 Wire format): 4-byte big-endian `uint32`,
8-byte big-endian `uint64`, `string` = 4-byte length + raw bytes.
The reader primitives (`crate::reader`) are not under `src/`; the spec
fixes their contract: bounded sequential reads that fail with a length
error on underrun. -/

/-- Big-endian bytes of a `u32` value. -/
def encodeU32 (n : Nat) : Bytes :=
  [n / 16777216 % 256, n / 65536 % 256, n / 256 % 256, n % 256]

/-- Big-endian bytes of a `u64` value. -/
def encodeU64 (n : Nat) : Bytes :=
  [n / 72057594037927936 % 256, n / 281474976710656 % 256,
   n / 1099511627776 % 256, n / 4294967296 % 256,
   n / 16777216 % 256, n / 65536 % 256, n / 256 % 256, n % 256]

/-- Modelled from the spec: `u32::decode` — read 4 bytes big-endian;
underrun is a length error. -/
def decodeU32 : Bytes → Except Error (Nat × Bytes)
  | b0 :: b1 :: b2 :: b3 :: rest =>
    .ok (((b0 * 256 + b1) * 256 + b2) * 256 + b3, rest)
  | _ => .error .Length

/-- Modelled from the spec: `u64::decode` — read 8 bytes big-endian. -/
def decodeU64 : Bytes → Except Error (Nat × Bytes)
  | b0 :: b1 :: b2 :: b3 :: b4 :: b5 :: b6 :: b7 :: rest =>
    .ok (((((((b0 * 256 + b1) * 256 + b2) * 256 + b3) * 256 + b4) * 256
      + b5) * 256 + b6) * 256 + b7, rest)
  | _ => .error .Length

/-- Modelled from the spec: bounded read of `n` raw bytes. -/
def readBytes (n : Nat) : Bytes → Except Error (Bytes × Bytes) := fun b =>
  if n ≤ b.length then .ok (b.take n, b.drop n) else .error .Length

/-- Modelled from the spec: `string` decode — `uint32` length prefix
followed by that many raw bytes. -/
def decodeStr (b : Bytes) : Except Error (Bytes × Bytes) :=
  match decodeU32 b with
  | .ok (n, rest) => readBytes n rest
  | .error e => .error e

/-- Unchecked `string` encoding: length prefix plus payload (the caller
guarantees `s.length < u32Lim`). -/
def strE (s : Bytes) : Bytes := encodeU32 s.length ++ s

/-- Modelled from the spec: `string` encode — the `usize → u32` length
conversion is checked and fails with `Error::Length` on overflow
(§4.1 checked-length arithmetic / no silent wrapping). -/
def eStr (s : Bytes) : Except Error Bytes :=
  if s.length < u32Lim then .ok (strE s) else .error .Length

/-- Modelled from the spec: `drain_prefixed` — read a `uint32` length
prefix and skip that many bytes, discarding them. -/
def drainPrefixed (b : Bytes) : Except Error (Unit × Bytes) :=
  match decodeStr b with
  | .ok (_, rest) => .ok ((), rest)
  | .error e => .error e

/-- Modelled from the spec: `read_byten` into a buffer of size `cap` —
read a length-prefixed byte string, failing with a length error when the
wire length exceeds the buffer capacity. -/
def readByten (cap : Nat) (b : Bytes) : Except Error (Bytes × Bytes) :=
  match decodeU32 b with
  | .ok (n, rest) =>
    if n ≤ cap then readBytes n rest else .error .Length
  | .error e => .error e

/-! ### Roundtrip lemmas for the primitives -/

theorem encodeU32_length (n : Nat) : (encodeU32 n).length = 4 := rfl

theorem encodeU64_length (n : Nat) : (encodeU64 n).length = 8 := rfl

theorem decodeU32_encode (n : Nat) (h : n < u32Lim) (r : Bytes) :
    decodeU32 (encodeU32 n ++ r) = .ok (n, r) := by
  simp only [encodeU32, List.cons_append, List.nil_append, decodeU32]
  congr 1
  congr 1
  unfold u32Lim at h
  omega

theorem decodeU64_encode (n : Nat) (h : n < u64Lim) (r : Bytes) :
    decodeU64 (encodeU64 n ++ r) = .ok (n, r) := by
  simp only [encodeU64, List.cons_append, List.nil_append, decodeU64]
  congr 1
  congr 1
  unfold u64Lim at h
  omega

theorem readBytes_append (s r : Bytes) :
    readBytes s.length (s ++ r) = .ok (s, r) := by
  simp [readBytes, List.take_left, List.drop_left]

theorem decodeStr_strE (s : Bytes) (h : s.length < u32Lim) (r : Bytes) :
    decodeStr (strE s ++ r) = .ok (s, r) := by
  simp only [strE, List.append_assoc, decodeStr, decodeU32_encode _ h,
    readBytes_append]

theorem eStr_ok (s : Bytes) (h : s.length < u32Lim) :
    eStr s = .ok (strE s) := by
  simp [eStr, h]

theorem drainPrefixed_strE (s : Bytes) (h : s.length < u32Lim) (r : Bytes) :
    drainPrefixed (strE s ++ r) = .ok ((), r) := by
  simp [drainPrefixed, decodeStr_strE s h]

theorem readByten_strE (cap : Nat) (s : Bytes) (hc : s.length ≤ cap)
    (h : s.length < u32Lim) (r : Bytes) :
    readByten cap (strE s ++ r) = .ok (s, r) := by
  simp only [strE, List.append_assoc, readByten, decodeU32_encode _ h,
    hc, if_true, readBytes_append]

/-- `strE` is injective on strings that fit in a `u32` even in the
presence of arbitrary suffixes. -/
theorem strE_inj (s t x y : Bytes) (hs : s.length < u32Lim)
    (ht : t.length < u32Lim) (h : strE s ++ x = strE t ++ y) :
    s ++ x = t ++ y ∧ s.length = t.length := by
  have h4 : decodeU32 (strE s ++ x) = decodeU32 (strE t ++ y) := by rw [h]
  rw [strE, strE, List.append_assoc, List.append_assoc,
    decodeU32_encode _ hs, decodeU32_encode _ ht] at h4
  have hlen : s.length = t.length := by
    simpa using congrArg Prod.fst (Except.ok.inj h4)
  have h2 : s ++ x = t ++ y := by
    have := congrArg (List.drop 4) h
    simpa [strE, List.drop_append_of_le_length] using this
  exact ⟨h2, hlen⟩

instance {ε α : Type} [DecidableEq ε] [DecidableEq α] :
    DecidableEq (Except ε α) := fun x y =>
  match x, y with
  | .ok a, .ok b =>
    if h : a = b then .isTrue (by rw [h])
    else .isFalse (fun hc => h (Except.ok.inj hc))
  | .error a, .error b =>
    if h : a = b then .isTrue (by rw [h])
    else .isFalse (fun hc => h (Except.error.inj hc))
  | .ok _, .error _ => .isFalse (fun hc => Except.noConfusion hc)
  | .error _, .ok _ => .isFalse (fun hc => Except.noConfusion hc)

/-! ## Algorithms

Modelled from the spec (§3 Algorithm): an enum-like identifier naming a
public-key algorithm family, with an exact wire string form and, for
certificate contexts, a `-cert-v01@openssh.com` suffixed form.  The Rust
`Algorithm` type lives outside `src/`; the wire strings are the standard
OpenSSH identifiers the spec refers to. -/

/-- Modelled from the spec: the ECDSA curves (curve parameter of the
ECDSA algorithm family). -/
inductive EcdsaCurve where
  | NistP256
  | NistP384
  | NistP521
  deriving DecidableEq, Repr

/-- Modelled from the spec: hash algorithm selector (RSA signature hash,
fingerprint hash). -/
inductive HashAlg where
  | Sha256
  | Sha512
  deriving DecidableEq, Repr

/-- Modelled from the spec: the closed set of public-key algorithm
families (§3). -/
inductive Algorithm where
  | Dsa
  | Ecdsa (curve : EcdsaCurve)
  | Ed25519
  | Rsa (hash : Option HashAlg)
  | SkEcdsaSha2NistP256
  | SkEd25519
  deriving DecidableEq, Repr

namespace EcdsaCurve

/-- Wire identifier of the curve (`ecdsa-sha2-nistp256` etc. carry it as
the suffix; it also appears alone inside ECDSA key bodies). -/
def asStr : EcdsaCurve → Bytes
  | .NistP256 => ascii "nistp256"
  | .NistP384 => ascii "nistp384"
  | .NistP521 => ascii "nistp521"

/-- Modelled from the spec: parsing a curve identifier; an unrecognized
identifier is an `Algorithm` error (§4.2 failure semantics). -/
def ofStr (s : Bytes) : Except Error EcdsaCurve :=
  if s = ascii "nistp256" then .ok .NistP256
  else if s = ascii "nistp384" then .ok .NistP384
  else if s = ascii "nistp521" then .ok .NistP521
  else .error .Algorithm

/-- Modelled from the spec: `EcdsaCurve::decode` — a length-prefixed
identifier string resolved via `ofStr`. -/
def decode (b : Bytes) : Except Error (EcdsaCurve × Bytes) :=
  match decodeStr b with
  | .ok (s, rest) =>
    match ofStr s with
    | .ok c => .ok (c, rest)
    | .error e => .error e
  | .error e => .error e

/-- `EcdsaCurve::encode`: the identifier as a length-prefixed string. -/
def encode (c : EcdsaCurve) : Bytes := strE c.asStr

theorem ofStr_asStr (c : EcdsaCurve) : ofStr c.asStr = .ok c := by
  cases c <;> decide

theorem curve_asStr_lt (c : EcdsaCurve) : c.asStr.length < u32Lim := by
  cases c <;> decide

theorem curve_decode_encode (c : EcdsaCurve) (r : Bytes) :
    decode (c.encode ++ r) = .ok (c, r) := by
  simp [decode, encode, decodeStr_strE c.asStr c.curve_asStr_lt, ofStr_asStr]

end EcdsaCurve

namespace Algorithm

/-- Modelled from the spec: `Algorithm::as_str` — the exact wire string
of the algorithm identifier. -/
def asStr : Algorithm → Bytes
  | .Dsa => ascii "ssh-dss"
  | .Ecdsa .NistP256 => ascii "ecdsa-sha2-nistp256"
  | .Ecdsa .NistP384 => ascii "ecdsa-sha2-nistp384"
  | .Ecdsa .NistP521 => ascii "ecdsa-sha2-nistp521"
  | .Ed25519 => ascii "ssh-ed25519"
  | .Rsa none => ascii "ssh-rsa"
  | .Rsa (some .Sha256) => ascii "rsa-sha2-256"
  | .Rsa (some .Sha512) => ascii "rsa-sha2-512"
  | .SkEcdsaSha2NistP256 => ascii "sk-ecdsa-sha2-nistp256@openssh.com"
  | .SkEd25519 => ascii "sk-ssh-ed25519@openssh.com"

/-- Modelled from the spec: `Algorithm::as_certificate_str` — the
`-cert-v01@openssh.com` suffixed certificate form (§3, §4.4). -/
def asCertificateStr : Algorithm → Bytes
  | .Dsa => ascii "ssh-dss-cert-v01@openssh.com"
  | .Ecdsa .NistP256 => ascii "ecdsa-sha2-nistp256-cert-v01@openssh.com"
  | .Ecdsa .NistP384 => ascii "ecdsa-sha2-nistp384-cert-v01@openssh.com"
  | .Ecdsa .NistP521 => ascii "ecdsa-sha2-nistp521-cert-v01@openssh.com"
  | .Ed25519 => ascii "ssh-ed25519-cert-v01@openssh.com"
  | .Rsa _ => ascii "ssh-rsa-cert-v01@openssh.com"
  | .SkEcdsaSha2NistP256 => ascii "sk-ecdsa-sha2-nistp256-cert-v01@openssh.com"
  | .SkEd25519 => ascii "sk-ssh-ed25519-cert-v01@openssh.com"

/-- Modelled from the spec: `Algorithm::new` — resolve a plain wire
identifier; an unrecognized identifier is an `Algorithm` error. -/
def new (s : Bytes) : Except Error Algorithm :=
  if s = ascii "ssh-dss" then .ok .Dsa
  else if s = ascii "ecdsa-sha2-nistp256" then .ok (.Ecdsa .NistP256)
  else if s = ascii "ecdsa-sha2-nistp384" then .ok (.Ecdsa .NistP384)
  else if s = ascii "ecdsa-sha2-nistp521" then .ok (.Ecdsa .NistP521)
  else if s = ascii "ssh-ed25519" then .ok .Ed25519
  else if s = ascii "ssh-rsa" then .ok (.Rsa none)
  else if s = ascii "rsa-sha2-256" then .ok (.Rsa (some .Sha256))
  else if s = ascii "rsa-sha2-512" then .ok (.Rsa (some .Sha512))
  else if s = ascii "sk-ecdsa-sha2-nistp256@openssh.com" then
    .ok .SkEcdsaSha2NistP256
  else if s = ascii "sk-ssh-ed25519@openssh.com" then .ok .SkEd25519
  else .error .Algorithm

/-- Modelled from the spec: `Algorithm::new_certificate` — resolve a
certificate-form identifier (§4.4 `decode` step 1); an unrecognized
identifier is an `Algorithm` error. -/
def newCertificate (s : Bytes) : Except Error Algorithm :=
  if s = ascii "ssh-dss-cert-v01@openssh.com" then .ok .Dsa
  else if s = ascii "ecdsa-sha2-nistp256-cert-v01@openssh.com" then
    .ok (.Ecdsa .NistP256)
  else if s = ascii "ecdsa-sha2-nistp384-cert-v01@openssh.com" then
    .ok (.Ecdsa .NistP384)
  else if s = ascii "ecdsa-sha2-nistp521-cert-v01@openssh.com" then
    .ok (.Ecdsa .NistP521)
  else if s = ascii "ssh-ed25519-cert-v01@openssh.com" then .ok .Ed25519
  else if s = ascii "ssh-rsa-cert-v01@openssh.com" then .ok (.Rsa none)
  else if s = ascii "sk-ecdsa-sha2-nistp256-cert-v01@openssh.com" then
    .ok .SkEcdsaSha2NistP256
  else if s = ascii "sk-ssh-ed25519-cert-v01@openssh.com" then
    .ok .SkEd25519
  else .error .Algorithm

/-- Modelled from the spec: `Algorithm::decode` — a length-prefixed
identifier string resolved via `new`. -/
def decode (b : Bytes) : Except Error (Algorithm × Bytes) :=
  match decodeStr b with
  | .ok (s, rest) =>
    match new s with
    | .ok a => .ok (a, rest)
    | .error e => .error e
  | .error e => .error e

/-- `Algorithm::encode`: the identifier as a length-prefixed string. -/
def encode (a : Algorithm) : Bytes := strE a.asStr

theorem new_asStr (a : Algorithm) : new a.asStr = .ok a := by
  cases a with
  | Ecdsa c => cases c <;> decide
  | Rsa h =>
    cases h with
    | none => decide
    | some h => cases h <;> decide
  | _ => decide

theorem asStr_length_lt (a : Algorithm) : a.asStr.length < u32Lim := by
  cases a with
  | Ecdsa c => cases c <;> decide
  | Rsa h =>
    cases h with
    | none => decide
    | some h => cases h <;> decide
  | _ => decide

theorem asCertificateStr_length_lt (a : Algorithm) :
    a.asCertificateStr.length < u32Lim := by
  cases a with
  | Ecdsa c => cases c <;> decide
  | Rsa h =>
    cases h with
    | none => decide
    | some h => cases h <;> decide
  | _ => decide

theorem alg_decode_encode (a : Algorithm) (r : Bytes) :
    decode (a.encode ++ r) = .ok (a, r) := by
  simp [decode, encode, decodeStr_strE a.asStr a.asStr_length_lt, new_asStr]

end Algorithm

/-! ## Checked length arithmetic -/

/-- `2^64`: exclusive bound of `usize` on the 64-bit platforms the spec
assumes for length arithmetic. -/
def usizeLim : Nat := 18446744073709551616

/-- `CheckedSum::checked_sum` (§4.1): sum of length terms, failing with
`Error::Length` instead of wrapping.  Folding `checked_add` over `Nat`
terms fails exactly when the total reaches `2^64`. -/
def checkedSum (l : List Nat) : Except Error Nat :=
  if l.sum < usizeLim then .ok l.sum else .error .Length

/-- Encoded length of a length-prefixed byte string: `[4, len]`. -/
def bytesEncodedLen (s : Bytes) : Except Error Nat :=
  checkedSum [4, s.length]

/-! ## Public key bodies

The per-algorithm key types (`DsaPublicKey`, `EcdsaPublicKey`,
`Ed25519PublicKey`, `RsaPublicKey`, `EcdsaNistP256PublicKey`) live outside
`src/`; the spec treats them as external collaborators with fixed
encode/decode contracts (§1, §4.2), so they are modelled from the spec at
that boundary. -/

/-- Modelled from the spec: DSA public key body — the four length-prefixed
integer components of a DSA key, each an opaque byte string here. -/
structure DsaPublicKey where
  p : Bytes
  q : Bytes
  g : Bytes
  y : Bytes
  deriving DecidableEq, Repr

namespace DsaPublicKey

/-- Modelled from the spec: decode four length-prefixed components. -/
def decode (b : Bytes) : Except Error (DsaPublicKey × Bytes) :=
  match decodeStr b with
  | .ok (p, b1) =>
    match decodeStr b1 with
    | .ok (q, b2) =>
      match decodeStr b2 with
      | .ok (g, b3) =>
        match decodeStr b3 with
        | .ok (y, b4) => .ok (⟨p, q, g, y⟩, b4)
        | .error e => .error e
      | .error e => .error e
    | .error e => .error e
  | .error e => .error e

/-- Modelled from the spec: encode the four components. -/
def encode (k : DsaPublicKey) : Except Error Bytes := do
  let ep ← eStr k.p
  let eq ← eStr k.q
  let eg ← eStr k.g
  let ey ← eStr k.y
  .ok (ep ++ eq ++ eg ++ ey)

/-- Modelled from the spec: encoded length of the four components. -/
def encodedLen (k : DsaPublicKey) : Except Error Nat := do
  checkedSum [← bytesEncodedLen k.p, ← bytesEncodedLen k.q,
    ← bytesEncodedLen k.g, ← bytesEncodedLen k.y]

end DsaPublicKey

/-- Modelled from the spec: RSA public key body — exponent and modulus,
each a length-prefixed opaque byte string here. -/
structure RsaPublicKey where
  e : Bytes
  n : Bytes
  deriving DecidableEq, Repr

namespace RsaPublicKey

/-- Modelled from the spec: decode exponent then modulus. -/
def decode (b : Bytes) : Except Error (RsaPublicKey × Bytes) :=
  match decodeStr b with
  | .ok (e, b1) =>
    match decodeStr b1 with
    | .ok (n, b2) => .ok (⟨e, n⟩, b2)
    | .error er => .error er
  | .error er => .error er

/-- Modelled from the spec: encode exponent then modulus. -/
def encode (k : RsaPublicKey) : Except Error Bytes := do
  let ee ← eStr k.e
  let en ← eStr k.n
  .ok (ee ++ en)

/-- Modelled from the spec: encoded length of exponent and modulus. -/
def encodedLen (k : RsaPublicKey) : Except Error Nat := do
  checkedSum [← bytesEncodedLen k.e, ← bytesEncodedLen k.n]

end RsaPublicKey

/-- Modelled from the spec: Ed25519 public key — a fixed 32-byte blob;
a wire string of any other length is a malformed fixed-size key blob
(fatal length error, §4.2 failure semantics). -/
abbrev Ed25519PublicKey := Bytes

namespace Ed25519PublicKey

/-- Modelled from the spec: decode a length-prefixed 32-byte blob. -/
def decode (b : Bytes) : Except Error (Ed25519PublicKey × Bytes) :=
  match decodeStr b with
  | .ok (s, rest) => if s.length = 32 then .ok (s, rest) else .error .Length
  | .error e => .error e

/-- Modelled from the spec: encode as a length-prefixed byte string. -/
def encode (k : Ed25519PublicKey) : Except Error Bytes := eStr k

/-- Modelled from the spec: encoded length `[4, 32]`. -/
def encodedLen (k : Ed25519PublicKey) : Except Error Nat :=
  bytesEncodedLen k

end Ed25519PublicKey

/-- Modelled from the spec: ECDSA public key body — the embedded curve
identifier followed by the length-prefixed curve point. -/
structure EcdsaPublicKey where
  curve : EcdsaCurve
  point : Bytes
  deriving DecidableEq, Repr

namespace EcdsaPublicKey

/-- Modelled from the spec: decode the embedded curve identifier, then the
length-prefixed point. -/
def decode (b : Bytes) : Except Error (EcdsaPublicKey × Bytes) :=
  match EcdsaCurve.decode b with
  | .ok (c, b1) =>
    match decodeStr b1 with
    | .ok (pt, b2) => .ok (⟨c, pt⟩, b2)
    | .error e => .error e
  | .error e => .error e

/-- Modelled from the spec: encode curve identifier then point. -/
def encode (k : EcdsaPublicKey) : Except Error Bytes := do
  let ept ← eStr k.point
  .ok (k.curve.encode ++ ept)

/-- Modelled from the spec: encoded length of curve identifier and
point. -/
def encodedLen (k : EcdsaPublicKey) : Except Error Nat := do
  checkedSum [← bytesEncodedLen k.curve.asStr, ← bytesEncodedLen k.point]

/-- `EcdsaPublicKey::algorithm`: ECDSA parameterized by the key's own
curve. -/
def algorithm (k : EcdsaPublicKey) : Algorithm := .Ecdsa k.curve

end EcdsaPublicKey

/-- Modelled from the spec: FIDO/U2F ECDSA/NIST P-256 public key — the
sec1 uncompressed point, a fixed 65-byte blob. -/
abbrev EcdsaNistP256PublicKey := Bytes

namespace EcdsaNistP256PublicKey

/-- Modelled from the spec: `EcdsaNistP256PublicKey::from_bytes` — accept
exactly a 65-byte sec1 uncompressed point; anything else is malformed
cryptographic material (`Crypto` error, §7). -/
def fromBytes (s : Bytes) : Except Error EcdsaNistP256PublicKey :=
  if s.length = 65 then .ok s else .error .Crypto

/-- The raw point bytes (`as_bytes`). -/
def asBytes (k : EcdsaNistP256PublicKey) : Bytes := k

end EcdsaNistP256PublicKey

/-! ## KeyData (`src/ssh-key/src/public/key_data.rs`) -/

/-- `SK_APPLICATION_STRING`: the fixed FIDO/U2F application string
(`"ssh:"`, not presently customizable). -/
def SK_APPLICATION_STRING : Bytes := ascii "ssh:"

/-- `KeyData`: the closed tagged-variant public key representation. -/
inductive KeyData where
  | Dsa (key : DsaPublicKey)
  | Ecdsa (key : EcdsaPublicKey)
  | Ed25519 (key : Ed25519PublicKey)
  | Rsa (key : RsaPublicKey)
  | SkEcdsaSha2NistP256 (key : EcdsaNistP256PublicKey)
  | SkEd25519 (key : Ed25519PublicKey)
  deriving DecidableEq, Repr

namespace KeyData

/-- `KeyData::algorithm`: the algorithm implied by the variant. -/
def algorithm : KeyData → Algorithm
  | .Dsa _ => .Dsa
  | .Ecdsa key => key.algorithm
  | .Ed25519 _ => .Ed25519
  | .Rsa _ => .Rsa none
  | .SkEcdsaSha2NistP256 _ => .SkEcdsaSha2NistP256
  | .SkEd25519 _ => .SkEd25519

/-- `KeyData::decode_as`: decode only the algorithm-specific body for an
already-known algorithm.  Mirrors the `match algorithm` in the source:
the ECDSA arm decodes the key and requires `key.curve() == curve`
(else `Error::Algorithm`); the SK-ECDSA arm decodes the embedded curve
and requires NIST P-256 (else `Error::Crypto`), reads the point through a
65-byte buffer, then drains the length-prefixed application string; the
SK-Ed25519 arm decodes the key then drains the application string. -/
def decodeAs (algorithm : Algorithm) (b : Bytes) :
    Except Error (KeyData × Bytes) :=
  match algorithm with
  | .Dsa =>
    match DsaPublicKey.decode b with
    | .ok (key, r) => .ok (.Dsa key, r)
    | .error e => .error e
  | .Ecdsa curve =>
    match EcdsaPublicKey.decode b with
    | .ok (key, r) =>
      if key.curve = curve then .ok (.Ecdsa key, r) else .error .Algorithm
    | .error e => .error e
  | .Ed25519 =>
    match Ed25519PublicKey.decode b with
    | .ok (key, r) => .ok (.Ed25519 key, r)
    | .error e => .error e
  | .Rsa _ =>
    match RsaPublicKey.decode b with
    | .ok (key, r) => .ok (.Rsa key, r)
    | .error e => .error e
  | .SkEcdsaSha2NistP256 =>
    match EcdsaCurve.decode b with
    | .ok (c, b1) =>
      if c ≠ EcdsaCurve.NistP256 then .error .Crypto
      else
        match readByten 65 b1 with
        | .ok (pt, b2) =>
          match EcdsaNistP256PublicKey.fromBytes pt with
          | .ok ec_point =>
            match drainPrefixed b2 with
            | .ok (_, b3) => .ok (.SkEcdsaSha2NistP256 ec_point, b3)
            | .error e => .error e
          | .error e => .error e
        | .error e => .error e
    | .error e => .error e
  | .SkEd25519 =>
    match Ed25519PublicKey.decode b with
    | .ok (public_key, b1) =>
      match drainPrefixed b1 with
      | .ok (_, b2) => .ok (.SkEd25519 public_key, b2)
      | .error e => .error e
    | .error e => .error e

/-- `KeyData::encoded_key_data_len`: length of the body without the
leading algorithm identifier. -/
def encodedKeyDataLen : KeyData → Except Error Nat
  | .Dsa key => key.encodedLen
  | .Ecdsa key => key.encodedLen
  | .Ed25519 key => key.encodedLen
  | .Rsa key => key.encodedLen
  | .SkEcdsaSha2NistP256 key => do
    checkedSum [← bytesEncodedLen EcdsaCurve.NistP256.asStr,
      ← bytesEncodedLen key.asBytes,
      ← bytesEncodedLen SK_APPLICATION_STRING]
  | .SkEd25519 key => do
    checkedSum [← key.encodedLen, ← bytesEncodedLen SK_APPLICATION_STRING]

/-- `KeyData::encode_key_data`: encode the body without the leading
algorithm identifier; the Security-Key arms append the fixed
`SK_APPLICATION_STRING`. -/
def encodeKeyData : KeyData → Except Error Bytes
  | .Dsa key => key.encode
  | .Ecdsa key => key.encode
  | .Ed25519 key => key.encode
  | .Rsa key => key.encode
  | .SkEcdsaSha2NistP256 key => do
    let ept ← eStr key.asBytes
    let eapp ← eStr SK_APPLICATION_STRING
    .ok (EcdsaCurve.NistP256.encode ++ ept ++ eapp)
  | .SkEd25519 key => do
    let ek ← key.encode
    let eapp ← eStr SK_APPLICATION_STRING
    .ok (ek ++ eapp)

/-- `impl Decode for KeyData`: decode a leading algorithm identifier,
then dispatch to `decode_as`. -/
def decode (b : Bytes) : Except Error (KeyData × Bytes) :=
  match Algorithm.decode b with
  | .ok (algorithm, b1) => decodeAs algorithm b1
  | .error e => .error e

/-- `impl Encode for KeyData`: algorithm identifier then body. -/
def encode (k : KeyData) : Except Error Bytes := do
  let body ← k.encodeKeyData
  .ok (k.algorithm.encode ++ body)

/-- `impl Encode for KeyData` (length): identifier plus body length. -/
def encodedLen (k : KeyData) : Except Error Nat := do
  checkedSum [← bytesEncodedLen k.algorithm.asStr, ← k.encodedKeyDataLen]

/-- Well-formedness of a `KeyData` value: the key material has the wire
sizes the external key types guarantee for values they produce
(fixed 32/65-byte blobs; components that fit a `u32` length prefix). -/
def valid : KeyData → Bool
  | .Dsa key => decide (key.p.length < u32Lim) &&
      decide (key.q.length < u32Lim) && decide (key.g.length < u32Lim) &&
      decide (key.y.length < u32Lim)
  | .Ecdsa key => decide (key.point.length < u32Lim)
  | .Ed25519 key => decide (List.length key = 32)
  | .Rsa key => decide (key.e.length < u32Lim) && decide (key.n.length < u32Lim)
  | .SkEcdsaSha2NistP256 key => decide (List.length key = 65)
  | .SkEd25519 key => decide (List.length key = 32)

end KeyData

/-! ### KeyData roundtrip lemmas -/

theorem sk_application_string_lt : SK_APPLICATION_STRING.length < u32Lim := by
  decide

namespace KeyData

theorem decodeAs_encodeKeyData (k : KeyData) (hv : k.valid = true)
    (eb r : Bytes) (he : k.encodeKeyData = .ok eb) :
    decodeAs k.algorithm (eb ++ r) = .ok (k, r) := by
  cases k with
  | Dsa key =>
    simp only [valid, Bool.and_eq_true, decide_eq_true_eq] at hv
    obtain ⟨⟨⟨hp, hq⟩, hg⟩, hy⟩ := hv
    simp only [encodeKeyData, DsaPublicKey.encode, eStr_ok _ hp,
      eStr_ok _ hq, eStr_ok _ hg, eStr_ok _ hy, bind, Except.bind,
      Except.ok.injEq] at he
    subst he
    simp [algorithm, decodeAs, DsaPublicKey.decode, List.append_assoc,
      decodeStr_strE _ hp, decodeStr_strE _ hq, decodeStr_strE _ hg,
      decodeStr_strE _ hy]
  | Ecdsa key =>
    simp only [valid, decide_eq_true_eq] at hv
    simp only [encodeKeyData, EcdsaPublicKey.encode, eStr_ok _ hv, bind,
      Except.bind, Except.ok.injEq] at he
    subst he
    simp [algorithm, EcdsaPublicKey.algorithm, decodeAs,
      EcdsaPublicKey.decode, List.append_assoc, EcdsaCurve.curve_decode_encode,
      decodeStr_strE _ hv]
  | Ed25519 key =>
    simp only [valid, decide_eq_true_eq] at hv
    have hlt : key.length < u32Lim := by rw [hv]; decide
    simp only [encodeKeyData, Ed25519PublicKey.encode, eStr_ok _ hlt,
      Except.ok.injEq] at he
    subst he
    simp [algorithm, decodeAs, Ed25519PublicKey.decode, decodeStr_strE _ hlt,
      hv]
  | Rsa key =>
    simp only [valid, Bool.and_eq_true, decide_eq_true_eq] at hv
    obtain ⟨he', hn⟩ := hv
    simp only [encodeKeyData, RsaPublicKey.encode, eStr_ok _ he',
      eStr_ok _ hn, bind, Except.bind, Except.ok.injEq] at he
    subst he
    simp [algorithm, decodeAs, RsaPublicKey.decode, List.append_assoc,
      decodeStr_strE _ he', decodeStr_strE _ hn]
  | SkEcdsaSha2NistP256 key =>
    simp only [valid, decide_eq_true_eq] at hv
    have hlt : (List.length key : Nat) < u32Lim := by rw [hv]; decide
    simp only [encodeKeyData, EcdsaNistP256PublicKey.asBytes, eStr_ok _ hlt,
      eStr_ok _ sk_application_string_lt, bind, Except.bind,
      Except.ok.injEq] at he
    subst he
    have h65 : (List.length key : Nat) ≤ 65 := by rw [hv]
    simp [algorithm, decodeAs, EcdsaCurve.curve_decode_encode, List.append_assoc,
      readByten_strE 65 key h65 hlt, EcdsaNistP256PublicKey.fromBytes,
      EcdsaNistP256PublicKey.asBytes, hv,
      drainPrefixed_strE _ sk_application_string_lt]
  | SkEd25519 key =>
    simp only [valid, decide_eq_true_eq] at hv
    have hlt : key.length < u32Lim := by rw [hv]; decide
    simp only [encodeKeyData, Ed25519PublicKey.encode, eStr_ok _ hlt,
      eStr_ok _ sk_application_string_lt, bind, Except.bind,
      Except.ok.injEq] at he
    subst he
    simp [algorithm, decodeAs, Ed25519PublicKey.decode, List.append_assoc,
      decodeStr_strE _ hlt, hv,
      drainPrefixed_strE _ sk_application_string_lt]

theorem keydata_decode_encode (k : KeyData) (hv : k.valid = true)
    (eb r : Bytes) (he : k.encode = .ok eb) :
    decode (eb ++ r) = .ok (k, r) := by
  obtain ⟨body, hbody⟩ : ∃ body, k.encodeKeyData = .ok body := by
    cases hb : k.encodeKeyData with
    | ok body => exact ⟨body, rfl⟩
    | error e =>
      rw [encode, hb] at he
      simp [bind, Except.bind] at he
  rw [encode, hbody] at he
  simp only [bind, Except.bind, Except.ok.injEq] at he
  subst he
  rw [List.append_assoc, decode, Algorithm.alg_decode_encode]
  exact decodeAs_encodeKeyData k hv body r hbody

end KeyData

/-! ## Nested regions, signatures, certificate types -/

/-- Modelled from the spec: `Reader::read_nested` — read a `uint32`
length prefix, hand the decoder a sub-reader over exactly that region;
whatever the decoder leaves unconsumed stays ahead of the outer
remainder. -/
def readNested {α : Type} (f : Bytes → Except Error (α × Bytes))
    (b : Bytes) : Except Error (α × Bytes) :=
  match decodeStr b with
  | .ok (region, rest) =>
    match f region with
    | .ok (a, leftover) => .ok (a, leftover ++ rest)
    | .error e => .error e
  | .error e => .error e

/-- `Encode::encode_nested` (writer side): length prefix of the inner
encoding followed by the inner encoding, the prefix being a checked
`usize → u32` conversion. -/
def encodeNested (inner : Except Error Bytes) : Except Error Bytes := do
  let body ← inner
  eStr body

theorem readNested_encodeNested {α : Type}
    (f : Bytes → Except Error (α × Bytes)) (inner : Except Error Bytes)
    (body : Bytes) (a : α) (eb r : Bytes)
    (hi : inner = .ok body) (he : encodeNested inner = .ok eb)
    (hf : f body = .ok (a, [])) :
    readNested f (eb ++ r) = .ok (a, r) := by
  rw [encodeNested, hi] at he
  simp only [bind, Except.bind] at he
  have hlt : body.length < u32Lim := by
    by_contra hge
    rw [eStr, if_neg hge] at he
    exact Except.noConfusion he
  rw [eStr_ok _ hlt] at he
  cases he
  rw [readNested, decodeStr_strE _ hlt]
  simp [hf]

/-- Modelled from the spec: `Signature` — an algorithm-self-describing
nested value: algorithm identifier plus opaque signature bytes. -/
structure Signature where
  algorithm : Algorithm
  data : Bytes
  deriving DecidableEq, Repr

namespace Signature

/-- Modelled from the spec: decode algorithm identifier then the
length-prefixed signature bytes. -/
def decode (b : Bytes) : Except Error (Signature × Bytes) :=
  match Algorithm.decode b with
  | .ok (algorithm, b1) =>
    match decodeStr b1 with
    | .ok (data, b2) => .ok (⟨algorithm, data⟩, b2)
    | .error e => .error e
  | .error e => .error e

/-- Modelled from the spec: encode algorithm identifier then bytes. -/
def encode (s : Signature) : Except Error Bytes := do
  let ed ← eStr s.data
  .ok (s.algorithm.encode ++ ed)

/-- Modelled from the spec: encoded length of identifier and bytes. -/
def encodedLen (s : Signature) : Except Error Nat := do
  checkedSum [← bytesEncodedLen s.algorithm.asStr, ← bytesEncodedLen s.data]

theorem sig_decode_encode (s : Signature) (eb r : Bytes)
    (he : s.encode = .ok eb) : decode (eb ++ r) = .ok (s, r) := by
  obtain ⟨hlt, heb⟩ : s.data.length < u32Lim ∧ eb = s.algorithm.encode ++ strE s.data := by
    rw [encode] at he
    by_cases hlt : s.data.length < u32Lim
    · rw [eStr_ok _ hlt] at he
      simp only [bind, Except.bind, Except.ok.injEq] at he
      exact ⟨hlt, he.symm⟩
    · rw [eStr, if_neg hlt] at he
      simp [bind, Except.bind] at he
  subst heb
  rw [List.append_assoc, decode, Algorithm.alg_decode_encode]
  simp [decodeStr_strE _ hlt]

end Signature

/-- `CertType`: certificate type tag (`User = 1`, `Host = 2`). -/
inductive CertType where
  | User
  | Host
  deriving DecidableEq, Repr

namespace CertType

/-- `From<CertType> for u32`. -/
def toU32 : CertType → Nat
  | .User => 1
  | .Host => 2

/-- `TryFrom<u32> for CertType`: any tag other than 1 or 2 is a fatal
`FormatEncoding` error. -/
def tryFrom (n : Nat) : Except Error CertType :=
  if n = 1 then .ok .User
  else if n = 2 then .ok .Host
  else .error .FormatEncoding

/-- `impl Decode for CertType`: `u32` then `try_into`. -/
def decode (b : Bytes) : Except Error (CertType × Bytes) :=
  match decodeU32 b with
  | .ok (n, rest) =>
    match tryFrom n with
    | .ok t => .ok (t, rest)
    | .error e => .error e
  | .error e => .error e

/-- `impl Encode for CertType`: the tag as a `u32`. -/
def encode (t : CertType) : Bytes := encodeU32 t.toU32

theorem certtype_decode_encode (t : CertType) (r : Bytes) :
    decode (t.encode ++ r) = .ok (t, r) := by
  have h : t.toU32 < u32Lim := by cases t <;> decide
  rw [CertType.encode, decode, decodeU32_encode _ h]
  cases t <;> rfl

end CertType

/-! ## Valid principals (`Vec<String>`) -/

/-- Modelled from the spec: body bytes of a principals list — each
principal as a length-prefixed string, concatenated. -/
def encodeStrList : List Bytes → Except Error Bytes
  | [] => .ok []
  | s :: t => do
    let es ← eStr s
    let rest ← encodeStrList t
    .ok (es ++ rest)

theorem decodeStr_consumes (b s rest : Bytes)
    (h : decodeStr b = .ok (s, rest)) : rest.length + 4 ≤ b.length := by
  match b with
  | [] | [_] | [_, _] | [_, _, _] => simp [decodeStr, decodeU32] at h
  | b0 :: b1 :: b2 :: b3 :: t =>
    simp only [decodeStr, decodeU32, readBytes] at h
    split at h
    · simp only [Except.ok.injEq, Prod.mk.injEq] at h
      obtain ⟨-, h2⟩ := h
      subst h2
      simp only [List.length_drop, List.length_cons]
      omega
    · exact absurd h (by simp)

/-- Modelled from the spec: the loop inside `Vec<String>::decode` —
decode strings until the nested region is exhausted.  The loop is given
as structural recursion on a fuel argument so it computes by kernel
reduction; each iteration consumes at least four bytes, so fuel equal to
the region length is always sufficient and the zero-fuel fallback is
unreachable from `principalsLoop`. -/
def principalsLoopF (fuel : Nat) (b : Bytes) : Except Error (List Bytes) :=
  if b.isEmpty then .ok []
  else
    match fuel with
    | 0 => .error .Length
    | fuel + 1 =>
      match decodeStr b with
      | .ok (s, rest) =>
        match principalsLoopF fuel rest with
        | .ok l => .ok (s :: l)
        | .error e => .error e
      | .error e => .error e

/-- The principals decode loop at its canonical (sufficient) fuel. -/
def principalsLoop (b : Bytes) : Except Error (List Bytes) :=
  principalsLoopF b.length b

/-- Modelled from the spec: `Vec<String>::decode` — a nested
length-prefixed region holding the principal strings. -/
def decodePrincipals : Bytes → Except Error (List Bytes × Bytes) :=
  readNested (fun region =>
    match principalsLoop region with
    | .ok l => .ok (l, [])
    | .error e => .error e)

/-- Modelled from the spec: `Vec<String>::encode` — region length prefix
then each principal string. -/
def encodePrincipals (l : List Bytes) : Except Error Bytes :=
  encodeNested (encodeStrList l)

theorem principalsLoopF_encodeStrList (l : List Bytes) :
    ∀ (fuel : Nat) (body : Bytes), encodeStrList l = .ok body →
    body.length ≤ fuel → principalsLoopF fuel body = .ok l := by
  induction l with
  | nil =>
    intro fuel body he _
    cases he
    cases fuel <;> rfl
  | cons s t ih =>
    intro fuel body he hf
    obtain ⟨hlt, rest, hrest, hbody⟩ :
        s.length < u32Lim ∧ ∃ rest, encodeStrList t = .ok rest ∧
          body = strE s ++ rest := by
      rw [encodeStrList] at he
      by_cases hlt : s.length < u32Lim
      · rw [eStr_ok _ hlt] at he
        cases hr : encodeStrList t with
        | ok rest =>
          rw [hr] at he
          simp only [bind, Except.bind, Except.ok.injEq] at he
          exact ⟨hlt, rest, rfl, he.symm⟩
        | error e =>
          rw [hr] at he
          simp [bind, Except.bind] at he
      · rw [eStr, if_neg hlt] at he
        simp [bind, Except.bind] at he
    subst hbody
    have hlen : (strE s ++ rest).length = 4 + s.length + rest.length := by
      simp [strE, encodeU32_length]
      omega
    match fuel with
    | 0 => omega
    | fuel + 1 =>
      rw [principalsLoopF]
      have hne : (strE s ++ rest).isEmpty = false := by
        simp [strE, encodeU32]
      rw [if_neg (by simp only [hne]; decide)]
      simp only [decodeStr_strE _ hlt, ih fuel rest hrest (by omega)]

theorem principalsLoop_encodeStrList (l : List Bytes) (body : Bytes)
    (he : encodeStrList l = .ok body) : principalsLoop body = .ok l :=
  principalsLoopF_encodeStrList l body.length body he (Nat.le_refl _)

theorem decodePrincipals_encode (l : List Bytes) (eb r : Bytes)
    (he : encodePrincipals l = .ok eb) :
    decodePrincipals (eb ++ r) = .ok (l, r) := by
  obtain ⟨body, hbody⟩ : ∃ body, encodeStrList l = .ok body := by
    rw [encodePrincipals, encodeNested] at he
    cases hb : encodeStrList l with
    | ok body => exact ⟨body, rfl⟩
    | error e =>
      rw [hb] at he
      simp [bind, Except.bind] at he
  exact readNested_encodeNested _ _ body l eb r hbody he
    (by rw [principalsLoop_encodeStrList l body hbody])

/-! ## Options map (`impl Decode/Encode for OptionsMap`)

`OptionsMap` is `BTreeMap<String, String>` in the source; we model it as
its ascending entry list, with `fromIter` mirroring `FromIterator`
(sequential ordered insertion). -/

/-- The entry list of an options map (ascending by name when
well-formed). -/
abbrev OptionsMap := List (Bytes × Bytes)

/-- `BTreeMap` ordered insertion: place the new entry before the first
strictly greater key, replacing an equal key. -/
def btreeInsert (m : OptionsMap) (k : Bytes) (v : Bytes) : OptionsMap :=
  match m with
  | [] => [(k, v)]
  | (k', v') :: t =>
    if lexLt k k' then (k, v) :: (k', v') :: t
    else if k = k' then (k, v) :: t
    else (k', v') :: btreeInsert t k v

/-- `OptionsMap::from_iter`: sequential insertion of the entries. -/
def OptionsMap.fromIter (entries : List (Bytes × Bytes)) : OptionsMap :=
  entries.foldl (fun m p => btreeInsert m p.1 p.2) []

/-- Strict ascending-name condition threaded with the previously decoded
name, mirroring the `entries.last()` check of the decode loop. -/
def strictAscFrom : Option Bytes → List Bytes → Bool
  | _, [] => true
  | none, n :: t => strictAscFrom (some n) t
  | some p, n :: t => lexLt p n && strictAscFrom (some n) t

/-- The decode loop of `impl Decode for OptionsMap`: read (name, value)
pairs until the nested region is exhausted; every name after the first
must compare strictly greater than the previous one, else
`Error::FormatEncoding`.  Structural recursion on a fuel argument so the
loop computes by kernel reduction; each iteration consumes at least
eight bytes, so fuel equal to the region length is always sufficient and
the zero-fuel fallback is unreachable from `optionsLoop`. -/
def optionsLoopF (fuel : Nat) (prev : Option Bytes) (b : Bytes) :
    Except Error (List (Bytes × Bytes)) :=
  if b.isEmpty then .ok []
  else
    match fuel with
    | 0 => .error .Length
    | fuel + 1 =>
      match decodeStr b with
      | .ok (name, b1) =>
        match decodeStr b1 with
        | .ok (data, b2) =>
          match prev with
          | some prev_name =>
            if lexLt prev_name name then
              match optionsLoopF fuel (some name) b2 with
              | .ok entries => .ok ((name, data) :: entries)
              | .error e => .error e
            else .error .FormatEncoding
          | none =>
            match optionsLoopF fuel (some name) b2 with
            | .ok entries => .ok ((name, data) :: entries)
            | .error e => .error e
        | .error e => .error e
      | .error e => .error e

/-- The options decode loop at its canonical (sufficient) fuel. -/
def optionsLoop (prev : Option Bytes) (b : Bytes) :
    Except Error (List (Bytes × Bytes)) :=
  optionsLoopF b.length prev b

/-! ### Order lemmas for `lexLt` -/

theorem lexLt_irrefl (a : Bytes) : lexLt a a = false := by
  induction a with
  | nil => rfl
  | cons x t ih => simp [lexLt, ih]

theorem lexLt_asymm (a : Bytes) : ∀ b, lexLt a b = true → lexLt b a = false := by
  induction a with
  | nil =>
    intro b h
    cases b with
    | nil => simpa [lexLt] using h
    | cons y s => rfl
  | cons x t ih =>
    intro b h
    cases b with
    | nil => simp [lexLt] at h
    | cons y s =>
      simp only [lexLt, Bool.or_eq_true, Bool.and_eq_true, decide_eq_true_eq,
        beq_iff_eq] at h
      simp only [lexLt, Bool.or_eq_false_iff, Bool.and_eq_false_iff,
        decide_eq_false_iff_not, not_lt]
      rcases h with h | ⟨hxy, hts⟩
      · exact ⟨Nat.le_of_lt h, Or.inl (by simp; omega)⟩
      · subst hxy
        exact ⟨Nat.le_refl x, Or.inr (ih s hts)⟩

theorem lexLt_trans (a : Bytes) :
    ∀ b c, lexLt a b = true → lexLt b c = true → lexLt a c = true := by
  induction a with
  | nil =>
    intro b c h1 h2
    cases b with
    | nil => simp [lexLt] at h1
    | cons y s =>
      cases c with
      | nil => simp [lexLt] at h2
      | cons z u => rfl
  | cons x t ih =>
    intro b c h1 h2
    cases b with
    | nil => simp [lexLt] at h1
    | cons y s =>
      cases c with
      | nil => simp [lexLt] at h2
      | cons z u =>
        simp only [lexLt, Bool.or_eq_true, Bool.and_eq_true,
          decide_eq_true_eq, beq_iff_eq] at h1 h2 ⊢
        rcases h1 with h1 | ⟨hxy, hts⟩
        · rcases h2 with h2 | ⟨hyz, hsu⟩
          · exact Or.inl (Nat.lt_trans h1 h2)
          · exact Or.inl (hyz ▸ h1)
        · rcases h2 with h2 | ⟨hyz, hsu⟩
          · exact Or.inl (hxy ▸ h2)
          · exact Or.inr ⟨hxy.trans hyz, ih s u hts hsu⟩

theorem lexLt_ne (a b : Bytes) (h : lexLt a b = true) : a ≠ b := by
  intro hab
  subst hab
  rw [lexLt_irrefl] at h
  exact Bool.noConfusion h

/-! ### `fromIter` on strictly ascending entry sequences -/

theorem btreeInsert_append (m : OptionsMap) (k : Bytes) (v : Bytes)
    (h : ∀ p ∈ m, lexLt p.1 k = true) : btreeInsert m k v = m ++ [(k, v)] := by
  induction m with
  | nil => rfl
  | cons q t ih =>
    have hq : lexLt q.1 k = true := h q (List.mem_cons_self q t)
    have h1 : lexLt k q.1 = false := lexLt_asymm _ _ hq
    have h2 : k ≠ q.1 := Ne.symm (lexLt_ne _ _ hq)
    obtain ⟨k', v'⟩ := q
    rw [btreeInsert]
    simp only at h1 h2
    rw [h1, if_neg h2]
    simp only [Bool.false_eq_true, if_false, List.cons_append,
      List.cons.injEq, true_and]
    exact ih (fun p hp => h p (List.mem_cons_of_mem _ hp))

theorem foldl_btreeInsert (l : List (Bytes × Bytes)) :
    ∀ m : OptionsMap, (∀ p ∈ m, ∀ q ∈ l, lexLt p.1 q.1 = true) →
    List.Pairwise (fun p q => lexLt p.1 q.1 = true) l →
    l.foldl (fun m p => btreeInsert m p.1 p.2) m = m ++ l := by
  induction l with
  | nil => intro m _ _; simp
  | cons p t ih =>
    intro m hm hl
    rw [List.foldl_cons,
      btreeInsert_append m p.1 p.2 (fun q hq => hm q hq p (List.mem_cons_self p t))]
    rw [ih (m ++ [p]) ?_ (List.Pairwise.sublist (List.sublist_cons_self p t) hl)]
    · simp
    · intro q hq r hr
      rcases List.mem_append.mp hq with hq | hq
      · exact hm q hq r (List.mem_cons_of_mem _ hr)
      · rcases List.mem_singleton.mp hq with rfl
        exact (List.pairwise_cons.mp hl).1 r hr

/-- `strictAscFrom` unfolded to an adjacent chain condition. -/
theorem strictAscFrom_some (p : Bytes) (l : List Bytes) :
    strictAscFrom (some p) l = true ↔
      List.Chain (fun a b => lexLt a b = true) p l := by
  induction l generalizing p with
  | nil => simp [strictAscFrom]
  | cons n t ih =>
    simp [strictAscFrom, Bool.and_eq_true, ih, List.chain_cons]

theorem strictAscFrom_none (l : List Bytes) :
    strictAscFrom none l = true ↔
      List.Chain' (fun a b => lexLt a b = true) l := by
  cases l with
  | nil => simp [strictAscFrom, List.Chain']
  | cons n t => simpa [strictAscFrom] using strictAscFrom_some n t

instance : IsTrans Bytes (fun a b => lexLt a b = true) :=
  ⟨fun a b c => lexLt_trans a b c⟩

theorem fromIter_sorted (l : List (Bytes × Bytes))
    (h : strictAscFrom none (l.map Prod.fst) = true) :
    OptionsMap.fromIter l = l := by
  have hch : List.Chain' (fun a b => lexLt a b = true) (l.map Prod.fst) :=
    (strictAscFrom_none _).mp h
  have hpw : List.Pairwise (fun a b => lexLt a b = true) (l.map Prod.fst) :=
    List.chain'_iff_pairwise.mp hch
  have hpw2 : List.Pairwise (fun p q : Bytes × Bytes => lexLt p.1 q.1 = true) l :=
    (List.pairwise_map).mp hpw
  simpa using foldl_btreeInsert l [] (by simp) hpw2

/-! ### Options map encode/decode -/

/-- Body bytes of the entry list: each (name, value) pair as two
length-prefixed strings. -/
def encodePairs : List (Bytes × Bytes) → Except Error Bytes
  | [] => .ok []
  | (name, data) :: t => do
    let en ← eStr name
    let ed ← eStr data
    let rest ← encodePairs t
    .ok (en ++ ed ++ rest)

/-- The `try_fold` of `impl Encode for OptionsMap::encoded_len`:
`[acc, 4, name.len(), 4, data.len()].checked_sum()` per entry. -/
def optionsLenFold (acc : Except Error Nat) : List (Bytes × Bytes) →
    Except Error Nat
  | [] => acc
  | (name, data) :: t =>
    match acc with
    | .ok a =>
      optionsLenFold (checkedSum [a, 4, name.length, 4, data.length]) t
    | .error e => .error e

/-- `OptionsMap::encoded_len`: fold starting from the 4-byte region
prefix. -/
def OptionsMap.encodedLen (m : OptionsMap) : Except Error Nat :=
  optionsLenFold (.ok 4) m

/-- `impl Encode for OptionsMap`: write `encoded_len - 4` (checked
subtraction, then checked `usize → u32`) as the region length, then each
(name, value) pair in map order. -/
def OptionsMap.encode (m : OptionsMap) : Except Error Bytes :=
  match OptionsMap.encodedLen m with
  | .ok len =>
    if 4 ≤ len then
      if len - 4 < u32Lim then
        match encodePairs m with
        | .ok body => .ok (encodeU32 (len - 4) ++ body)
        | .error e => .error e
      else .error .Length
    else .error .Length
  | .error e => .error e

/-- `impl Decode for OptionsMap`: nested region, decode loop, then
`OptionsMap::from_iter`. -/
def OptionsMap.decode : Bytes → Except Error (OptionsMap × Bytes) :=
  readNested (fun region =>
    match optionsLoop none region with
    | .ok entries => .ok (OptionsMap.fromIter entries, [])
    | .error e => .error e)

theorem optionsLenFold_error (m : List (Bytes × Bytes)) (e : Error) :
    optionsLenFold (.error e) m = .error e := by
  cases m with
  | nil => rfl
  | cons p t => obtain ⟨n, d⟩ := p; rfl

theorem optionsLenFold_spec (m : List (Bytes × Bytes)) :
    ∀ (a n : Nat) (body : Bytes), optionsLenFold (.ok a) m = .ok n →
    encodePairs m = .ok body → n = a + body.length := by
  induction m with
  | nil =>
    intro a n body hf he
    cases hf
    cases he
    simp
  | cons p t ih =>
    intro a n body hf he
    obtain ⟨name, data⟩ := p
    obtain ⟨hn, hd, rest, hrest, hbody⟩ :
        name.length < u32Lim ∧ data.length < u32Lim ∧
          ∃ rest, encodePairs t = .ok rest ∧
            body = strE name ++ strE data ++ rest := by
      rw [encodePairs] at he
      by_cases hn : name.length < u32Lim
      · by_cases hd : data.length < u32Lim
        · rw [eStr_ok _ hn, eStr_ok _ hd] at he
          cases hr : encodePairs t with
          | ok rest =>
            rw [hr] at he
            simp only [bind, Except.bind, Except.ok.injEq] at he
            exact ⟨hn, hd, rest, rfl, he.symm⟩
          | error e =>
            rw [hr] at he
            simp [bind, Except.bind] at he
        · rw [eStr_ok _ hn, eStr, if_neg hd] at he
          simp [bind, Except.bind] at he
      · rw [eStr, if_neg hn] at he
        simp [bind, Except.bind] at he
    subst hbody
    rw [optionsLenFold] at hf
    cases hcs : checkedSum [a, 4, name.length, 4, data.length] with
    | ok a2 =>
      rw [hcs] at hf
      have ha2 : a2 = a + 4 + name.length + 4 + data.length := by
        rw [checkedSum] at hcs
        split at hcs
        · cases hcs; simp; omega
        · exact absurd hcs (by simp)
      have := ih a2 n rest hf hrest
      subst ha2
      rw [this]
      simp only [List.length_append, strE, encodeU32_length]
      omega
    | error e =>
      rw [hcs, optionsLenFold_error] at hf
      exact absurd hf (by simp)

theorem optionsEncode_shape (m : OptionsMap) (eb : Bytes)
    (he : OptionsMap.encode m = .ok eb) :
    ∃ body, encodePairs m = .ok body ∧ body.length < u32Lim ∧
      eb = strE body := by
  rw [OptionsMap.encode] at he
  split at he
  case _ len hl =>
    by_cases h4 : 4 ≤ len
    · rw [if_pos h4] at he
      by_cases hlt : len - 4 < u32Lim
      · rw [if_pos hlt] at he
        cases hb : encodePairs m with
        | ok body =>
          rw [hb] at he
          simp only [Except.ok.injEq] at he
          have hlen : len = 4 + body.length :=
            optionsLenFold_spec m 4 len body hl hb
          refine ⟨body, rfl, ?_, ?_⟩
          · omega
          · rw [← he, strE]
            congr 2
            omega
        | error e => rw [hb] at he; exact absurd he (by simp)
      · rw [if_neg hlt] at he; exact absurd he (by simp)
    · rw [if_neg h4] at he; exact absurd he (by simp)
  case _ e hl => exact absurd he (by simp)

theorem optionsLoopF_spec (m : List (Bytes × Bytes)) :
    ∀ (fuel : Nat) (prev : Option Bytes) (body : Bytes),
    encodePairs m = .ok body → body.length ≤ fuel →
    optionsLoopF fuel prev body =
      if strictAscFrom prev (m.map Prod.fst) = true then .ok m
      else .error .FormatEncoding := by
  induction m with
  | nil =>
    intro fuel prev body he _
    cases he
    cases fuel <;> simp [optionsLoopF, strictAscFrom]
  | cons p t ih =>
    intro fuel prev body he hf
    obtain ⟨name, data⟩ := p
    obtain ⟨hn, hd, rest, hrest, hbody⟩ :
        name.length < u32Lim ∧ data.length < u32Lim ∧
          ∃ rest, encodePairs t = .ok rest ∧
            body = strE name ++ strE data ++ rest := by
      rw [encodePairs] at he
      by_cases hn : name.length < u32Lim
      · by_cases hd : data.length < u32Lim
        · rw [eStr_ok _ hn, eStr_ok _ hd] at he
          cases hr : encodePairs t with
          | ok rest =>
            rw [hr] at he
            simp only [bind, Except.bind, Except.ok.injEq] at he
            exact ⟨hn, hd, rest, rfl, he.symm⟩
          | error e =>
            rw [hr] at he
            simp [bind, Except.bind] at he
        · rw [eStr_ok _ hn, eStr, if_neg hd] at he
          simp [bind, Except.bind] at he
      · rw [eStr, if_neg hn] at he
        simp [bind, Except.bind] at he
    subst hbody
    have hlen : (strE name ++ strE data ++ rest).length =
        8 + name.length + data.length + rest.length := by
      simp [strE, encodeU32_length]
      omega
    match fuel with
    | 0 => omega
    | fuel + 1 =>
      rw [optionsLoopF]
      have hne : ((strE name ++ strE data ++ rest).isEmpty = false) := by
        simp [strE, encodeU32]
      rw [if_neg (by simp only [hne]; decide)]
      have hrec := ih fuel (some name) rest hrest (by omega)
      cases prev with
      | none =>
        simp only [List.append_assoc, decodeStr_strE _ hn,
          decodeStr_strE _ hd, hrec, List.map_cons, strictAscFrom]
        by_cases hA : strictAscFrom (some name) (List.map Prod.fst t) = true
        · simp [hA]
        · simp [hA]
      | some prev_name =>
        simp only [List.append_assoc, decodeStr_strE _ hn,
          decodeStr_strE _ hd, List.map_cons, strictAscFrom]
        by_cases hord : lexLt prev_name name = true
        · rw [if_pos hord, hrec]
          by_cases hA : strictAscFrom (some name) (List.map Prod.fst t) = true
          · simp [hord, hA]
          · simp [hord, hA]
        · rw [if_neg hord]
          have hford : lexLt prev_name name = false :=
            Bool.eq_false_iff.mpr hord
          simp [hford]

theorem OptionsMap.decode_encode (m : OptionsMap) (eb r : Bytes)
    (he : OptionsMap.encode m = .ok eb)
    (hasc : strictAscFrom none (m.map Prod.fst) = true) :
    OptionsMap.decode (eb ++ r) = .ok (m, r) := by
  obtain ⟨body, hbody, hlt, heb⟩ := optionsEncode_shape m eb he
  subst heb
  have hloop : optionsLoop none body = .ok m := by
    rw [optionsLoop,
      optionsLoopF_spec m body.length none body hbody (Nat.le_refl _),
      if_pos hasc]
  rw [OptionsMap.decode, readNested, decodeStr_strE _ hlt]
  simp [hloop, fromIter_sorted m hasc]

/-! ## The Certificate (`src/ssh-key/src/certificate.rs`) -/

/-- Compatibility of a `KeyData` variant with the algorithm used to
decode it: exactly the pairs for which `KeyData::decode_as` can return
this variant (ECDSA requires the key's own curve; RSA matches any hash
parameter). -/
def KeyData.algCompat : KeyData → Algorithm → Bool
  | .Dsa _, .Dsa => true
  | .Ecdsa key, .Ecdsa curve => key.curve == curve
  | .Ed25519 _, .Ed25519 => true
  | .Rsa _, .Rsa _ => true
  | .SkEcdsaSha2NistP256 _, .SkEcdsaSha2NistP256 => true
  | .SkEd25519 _, .SkEd25519 => true
  | _, _ => false

theorem KeyData.decodeAs_compat (k : KeyData) (a : Algorithm)
    (hc : KeyData.algCompat k a = true) (hv : k.valid = true)
    (eb r : Bytes) (he : k.encodeKeyData = .ok eb) :
    KeyData.decodeAs a (eb ++ r) = .ok (k, r) := by
  cases k with
  | Dsa key =>
    cases a
    case Dsa => exact decodeAs_encodeKeyData (.Dsa key) hv eb r he
    all_goals simp [algCompat] at hc
  | Ecdsa key =>
    cases a
    case Ecdsa curve =>
      have : key.curve = curve := by simpa [algCompat] using hc
      subst this
      exact decodeAs_encodeKeyData (.Ecdsa key) hv eb r he
    all_goals simp [algCompat] at hc
  | Ed25519 key =>
    cases a
    case Ed25519 => exact decodeAs_encodeKeyData (.Ed25519 key) hv eb r he
    all_goals simp [algCompat] at hc
  | Rsa key =>
    cases a
    case Rsa hash =>
      have hbase := decodeAs_encodeKeyData (.Rsa key) hv eb r he
      simpa [decodeAs, algorithm] using hbase
    all_goals simp [algCompat] at hc
  | SkEcdsaSha2NistP256 key =>
    cases a
    case SkEcdsaSha2NistP256 =>
      exact decodeAs_encodeKeyData (.SkEcdsaSha2NistP256 key) hv eb r he
    all_goals simp [algCompat] at hc
  | SkEd25519 key =>
    cases a
    case SkEd25519 => exact decodeAs_encodeKeyData (.SkEd25519 key) hv eb r he
    all_goals simp [algCompat] at hc

/-- The certificate record (field for field the Rust struct; strings are
byte lists). -/
structure Certificate where
  algorithm : Algorithm
  nonce : Bytes
  public_key : KeyData
  serial : Nat
  cert_type : CertType
  key_id : Bytes
  valid_principals : List Bytes
  valid_after : Nat
  valid_before : Nat
  critical_options : OptionsMap
  extensions : OptionsMap
  reserved : Bytes
  signature_key : KeyData
  signature : Signature
  comment : Bytes
  deriving DecidableEq, Repr

namespace Certificate

/-- `impl Decode for Certificate`: resolve the certificate algorithm
string, then decode the remaining fields strictly in wire order;
`public_key` is decoded via `KeyData::decode_as` with the resolved
algorithm, `signature_key` and `signature` as self-describing nested
values; `comment` is left empty. -/
def decode (b : Bytes) : Except Error (Certificate × Bytes) :=
  match decodeStr b with
  | .ok (alg_str, b1) =>
    match Algorithm.newCertificate alg_str with
    | .ok algorithm =>
      match decodeStr b1 with
      | .ok (nonce, b2) =>
        match KeyData.decodeAs algorithm b2 with
        | .ok (public_key, b3) =>
          match decodeU64 b3 with
          | .ok (serial, b4) =>
            match CertType.decode b4 with
            | .ok (cert_type, b5) =>
              match decodeStr b5 with
              | .ok (key_id, b6) =>
                match decodePrincipals b6 with
                | .ok (valid_principals, b7) =>
                  match decodeU64 b7 with
                  | .ok (valid_after, b8) =>
                    match decodeU64 b8 with
                    | .ok (valid_before, b9) =>
                      match OptionsMap.decode b9 with
                      | .ok (critical_options, b10) =>
                        match OptionsMap.decode b10 with
                        | .ok (extensions, b11) =>
                          match decodeStr b11 with
                          | .ok (reserved, b12) =>
                            match readNested KeyData.decode b12 with
                            | .ok (signature_key, b13) =>
                              match readNested Signature.decode b13 with
                              | .ok (signature, b14) =>
                                .ok (⟨algorithm, nonce, public_key, serial,
                                  cert_type, key_id, valid_principals,
                                  valid_after, valid_before,
                                  critical_options, extensions, reserved,
                                  signature_key, signature, []⟩, b14)
                              | .error e => .error e
                            | .error e => .error e
                          | .error e => .error e
                        | .error e => .error e
                      | .error e => .error e
                    | .error e => .error e
                  | .error e => .error e
                | .error e => .error e
              | .error e => .error e
            | .error e => .error e
          | .error e => .error e
        | .error e => .error e
      | .error e => .error e
    | .error e => .error e
  | .error e => .error e

/-- `Certificate::encode_tbs`: every field from the certificate algorithm
string up to and including the nested `signature_key`. -/
def encodeTbs (c : Certificate) : Except Error Bytes := do
  let ealg ← eStr c.algorithm.asCertificateStr
  let enonce ← eStr c.nonce
  let epk ← c.public_key.encodeKeyData
  let ekeyid ← eStr c.key_id
  let eprinc ← encodePrincipals c.valid_principals
  let ecrit ← OptionsMap.encode c.critical_options
  let eext ← OptionsMap.encode c.extensions
  let eres ← eStr c.reserved
  let esigkey ← encodeNested c.signature_key.encode
  .ok (ealg ++ enonce ++ epk ++ encodeU64 c.serial ++
    CertType.encode c.cert_type ++ ekeyid ++ eprinc ++
    encodeU64 c.valid_after ++ encodeU64 c.valid_before ++ ecrit ++ eext ++
    eres ++ esigkey)

/-- `impl Encode for Certificate`: the TBS fields followed by the nested
signature. -/
def encode (c : Certificate) : Except Error Bytes := do
  let tbs ← c.encodeTbs
  let esig ← encodeNested c.signature.encode
  .ok (tbs ++ esig)

/-- `Certificate::to_bytes`: serialize to raw bytes. -/
def toBytes (c : Certificate) : Except Error Bytes := c.encode

/-- `Certificate::from_bytes`: decode and require the whole buffer to be
consumed (`Error::Length` otherwise). -/
def fromBytes (bytes : Bytes) : Except Error Certificate :=
  match decode bytes with
  | .ok (cert, rest) => if rest.isEmpty then .ok cert else .error .Length
  | .error e => .error e

/-- Well-formedness of a certificate value: exactly the decode-side
invariants that binary encoding itself does not force — the algorithm
string resolves back to the same algorithm, the subject key matches the
certificate algorithm and has well-sized key material, the integer fields
fit `u64`, and the options maps are strictly ascending by name. -/
def valid (c : Certificate) : Bool :=
  (Algorithm.newCertificate c.algorithm.asCertificateStr ==
    Except.ok c.algorithm) &&
  c.public_key.valid && KeyData.algCompat c.public_key c.algorithm &&
  decide (c.serial < u64Lim) && decide (c.valid_after < u64Lim) &&
  decide (c.valid_before < u64Lim) &&
  strictAscFrom none (c.critical_options.map Prod.fst) &&
  strictAscFrom none (c.extensions.map Prod.fst) &&
  c.signature_key.valid

end Certificate

theorem eStr_ok_inv (s x : Bytes) (h : eStr s = .ok x) :
    s.length < u32Lim ∧ x = strE s := by
  by_cases hl : s.length < u32Lim
  · rw [eStr_ok _ hl] at h
    exact ⟨hl, (Except.ok.inj h).symm⟩
  · rw [eStr, if_neg hl] at h
    exact absurd h (by simp)

namespace Certificate

theorem cert_decode_encode (c : Certificate) (hv : c.valid = true) (eb r : Bytes)
    (he : c.encode = .ok eb) :
    decode (eb ++ r) = .ok ({ c with comment := [] }, r) := by
  simp only [valid, Bool.and_eq_true, beq_iff_eq, decide_eq_true_eq] at hv
  obtain ⟨⟨⟨⟨⟨⟨⟨⟨halg, hpk⟩, hcompat⟩, hser⟩, hva⟩, hvb⟩, hcrit⟩, hext⟩,
    hsk⟩ := hv
  rw [encode] at he
  cases htbs : c.encodeTbs with
  | error e => rw [htbs] at he; simp [bind, Except.bind] at he
  | ok tbs =>
  cases hesig : encodeNested c.signature.encode with
  | error e => rw [htbs, hesig] at he; simp [bind, Except.bind] at he
  | ok esig =>
  rw [htbs, hesig] at he
  simp only [bind, Except.bind, Except.ok.injEq] at he
  subst he
  rw [encodeTbs] at htbs
  cases h1 : eStr c.algorithm.asCertificateStr with
  | error e => rw [h1] at htbs; simp [bind, Except.bind] at htbs
  | ok ealg =>
  cases h2 : eStr c.nonce with
  | error e => rw [h1, h2] at htbs; simp [bind, Except.bind] at htbs
  | ok enonce =>
  cases h3 : c.public_key.encodeKeyData with
  | error e => rw [h1, h2, h3] at htbs; simp [bind, Except.bind] at htbs
  | ok epk =>
  cases h4 : eStr c.key_id with
  | error e => rw [h1, h2, h3, h4] at htbs; simp [bind, Except.bind] at htbs
  | ok ekeyid =>
  cases h5 : encodePrincipals c.valid_principals with
  | error e =>
    rw [h1, h2, h3, h4, h5] at htbs
    simp [bind, Except.bind] at htbs
  | ok eprinc =>
  cases h6 : OptionsMap.encode c.critical_options with
  | error e =>
    rw [h1, h2, h3, h4, h5, h6] at htbs
    simp [bind, Except.bind] at htbs
  | ok ecrit =>
  cases h7 : OptionsMap.encode c.extensions with
  | error e =>
    rw [h1, h2, h3, h4, h5, h6, h7] at htbs
    simp [bind, Except.bind] at htbs
  | ok eext =>
  cases h8 : eStr c.reserved with
  | error e =>
    rw [h1, h2, h3, h4, h5, h6, h7, h8] at htbs
    simp [bind, Except.bind] at htbs
  | ok eres =>
  cases h9 : encodeNested c.signature_key.encode with
  | error e =>
    rw [h1, h2, h3, h4, h5, h6, h7, h8, h9] at htbs
    simp [bind, Except.bind] at htbs
  | ok esigkey =>
  rw [h1, h2, h3, h4, h5, h6, h7, h8, h9] at htbs
  simp only [bind, Except.bind, Except.ok.injEq] at htbs
  subst htbs
  obtain ⟨hAlt, hA⟩ := eStr_ok_inv _ _ h1
  subst hA
  obtain ⟨hNlt, hN⟩ := eStr_ok_inv _ _ h2
  subst hN
  obtain ⟨hKlt, hK⟩ := eStr_ok_inv _ _ h4
  subst hK
  obtain ⟨hRlt, hR⟩ := eStr_ok_inv _ _ h8
  subst hR
  have hpkdec : ∀ rest, KeyData.decodeAs c.algorithm (epk ++ rest) =
      .ok (c.public_key, rest) := fun rest =>
    KeyData.decodeAs_compat c.public_key c.algorithm hcompat hpk epk rest h3
  have hprincdec : ∀ rest, decodePrincipals (eprinc ++ rest) =
      .ok (c.valid_principals, rest) := fun rest =>
    decodePrincipals_encode c.valid_principals eprinc rest h5
  have hcritdec : ∀ rest, OptionsMap.decode (ecrit ++ rest) =
      .ok (c.critical_options, rest) := fun rest =>
    OptionsMap.decode_encode c.critical_options ecrit rest h6 hcrit
  have hextdec : ∀ rest, OptionsMap.decode (eext ++ rest) =
      .ok (c.extensions, rest) := fun rest =>
    OptionsMap.decode_encode c.extensions eext rest h7 hext
  obtain ⟨skb, hskb⟩ : ∃ skb, c.signature_key.encode = .ok skb := by
    rw [encodeNested] at h9
    cases hs : c.signature_key.encode with
    | ok skb => exact ⟨skb, rfl⟩
    | error e => rw [hs] at h9; simp [bind, Except.bind] at h9
  have hskinner : KeyData.decode skb = .ok (c.signature_key, []) := by
    have := KeyData.keydata_decode_encode c.signature_key hsk skb [] hskb
    simpa using this
  have hskdec : ∀ rest, readNested KeyData.decode (esigkey ++ rest) =
      .ok (c.signature_key, rest) := fun rest =>
    readNested_encodeNested KeyData.decode _ skb _ esigkey rest hskb h9
      hskinner
  obtain ⟨sgb, hsgb⟩ : ∃ sgb, c.signature.encode = .ok sgb := by
    rw [encodeNested] at hesig
    cases hs : c.signature.encode with
    | ok sgb => exact ⟨sgb, rfl⟩
    | error e => rw [hs] at hesig; simp [bind, Except.bind] at hesig
  have hsginner : Signature.decode sgb = .ok (c.signature, []) := by
    have := Signature.sig_decode_encode c.signature sgb [] hsgb
    simpa using this
  have hsgdec : ∀ rest, readNested Signature.decode (esig ++ rest) =
      .ok (c.signature, rest) := fun rest =>
    readNested_encodeNested Signature.decode _ sgb _ esig rest hsgb hesig
      hsginner
  simp only [decode, List.append_assoc, decodeStr_strE _ hAlt, halg,
    decodeStr_strE _ hNlt, hpkdec, decodeU64_encode _ hser,
    CertType.certtype_decode_encode, decodeStr_strE _ hKlt, hprincdec,
    decodeU64_encode _ hva, decodeU64_encode _ hvb, hcritdec, hextdec,
    decodeStr_strE _ hRlt, hskdec, hsgdec]

end Certificate

/-! ## Certificate validation

The signature-verification and fingerprint primitives are external
(§1, §6): they are passed in as oracles, so every theorem below holds for
any behaviour of the collaborators. -/

/-- Modelled from the spec: per-algorithm `verify(key, message,
signature) -> ok/fail`, abstracted as an oracle. -/
def Verifier : Type := KeyData → Bytes → Signature → Bool

/-- Modelled from the spec: per-key SHA-256 fingerprint computation,
abstracted as an oracle returning the digest bytes. -/
def FpOracle : Type := KeyData → Bytes

/-- `KeyData::fingerprint`: only SHA-256 is supported; any other hash
algorithm is an `Algorithm` error. -/
def KeyData.fingerprint (F : FpOracle) (hash_alg : HashAlg) (k : KeyData) :
    Except Error Bytes :=
  match hash_alg with
  | .Sha256 => .ok (F k)
  | _ => .error .Algorithm

namespace Certificate

/-- `Certificate::verify_signature`: re-encode the TBS region and verify
the certificate's signature against it — the source verifies with
`self.public_key` (the subject key), and maps any verification failure to
`Error::CertificateValidation`. -/
def verifySignature (V : Verifier) (c : Certificate) : Except Error Unit :=
  match c.encodeTbs with
  | .ok tbs_certificate =>
    if V c.public_key tbs_certificate c.signature then .ok ()
    else .error .CertificateValidation
  | .error e => .error e

/-- `Certificate::validate_at`: signature check, then SHA-256
trust-anchor check against the caller-supplied fingerprints, then the
half-open time-window check. -/
def validateAt (V : Verifier) (F : FpOracle) (c : Certificate)
    (unix_timestamp : Nat) (ca_fingerprints : List Bytes) :
    Except Error Unit :=
  match c.verifySignature V with
  | .ok _ =>
    match KeyData.fingerprint F .Sha256 c.signature_key with
    | .ok cert_fingerprint =>
      if ¬ ca_fingerprints.any (fun f => f = cert_fingerprint) then
        .error .CertificateValidation
      else if c.valid_after ≤ unix_timestamp ∧
          unix_timestamp < c.valid_before then .ok ()
      else .error .CertificateValidation
    | .error e => .error e
  | .error e => .error e

end Certificate

/-! ## Textual envelope (`from_openssh` / `to_openssh`) -/

/-- Modelled from the spec: the parsed textual envelope
`<algorithm-id> <base64-data> <comment>`.  The base64 codec is an
out-of-scope collaborator (§1), so `base64_data` holds the already
decoded binary payload. -/
structure Encapsulation where
  algorithm_id : Bytes
  base64_data : Bytes
  comment : Bytes
  deriving DecidableEq, Repr

namespace Certificate

/-- `Certificate::from_openssh` on a parsed envelope: decode the binary
payload, reject unconsumed trailing bytes (`Error::Length`), require the
envelope algorithm identifier to equal the decoded certificate's own
`as_certificate_str` (`Error::Algorithm`), then attach the envelope
comment. -/
def fromOpenssh (encapsulation : Encapsulation) : Except Error Certificate :=
  match decode encapsulation.base64_data with
  | .ok (cert, rest) =>
    if ¬ rest.isEmpty then .error .Length
    else if encapsulation.algorithm_id ≠ cert.algorithm.asCertificateStr then
      .error .Algorithm
    else .ok { cert with comment := encapsulation.comment }
  | .error e => .error e

/-- `Certificate::to_openssh` on the envelope level: the certificate's
own algorithm identifier, the binary encoding as payload, and the comment
appended verbatim.  (The checked buffer-size arithmetic of the source
only affects error cases and is subsumed by the encoder's own checks.) -/
def toOpenssh (c : Certificate) : Except Error Encapsulation :=
  match c.encode with
  | .ok bytes => .ok ⟨c.algorithm.asCertificateStr, bytes, c.comment⟩
  | .error e => .error e

end Certificate

/-! ## Concrete example values -/

/-- A 32-byte Ed25519 subject key. -/
def exKey : Ed25519PublicKey := List.replicate 32 7

/-- A 32-byte Ed25519 CA key, distinct from the subject key. -/
def exCaKey : Ed25519PublicKey := List.replicate 32 9

/-- A 65-byte sec1 P-256 point. -/
def exPt : EcdsaNistP256PublicKey := List.replicate 65 4

/-- A small, fully concrete Ed25519 user certificate with a non-empty
comment, valid from 100 to 200. -/
def exCert : Certificate :=
  { algorithm := .Ed25519
    nonce := [1, 2, 3]
    public_key := .Ed25519 exKey
    serial := 42
    cert_type := .User
    key_id := ascii "id"
    valid_principals := [ascii "root"]
    valid_after := 100
    valid_before := 200
    critical_options := [(ascii "a", ascii "1")]
    extensions := [(ascii "b", ascii "2")]
    reserved := []
    signature_key := .Ed25519 exCaKey
    signature := ⟨.Ed25519, List.replicate 64 5⟩
    comment := ascii "user@example.com" }

/-- `exCert` with the comment cleared (what binary decode produces). -/
def exCertNC : Certificate := { exCert with comment := [] }

/-- The binary encoding of `exCert`. -/
def exBytes : Bytes :=
  match exCert.toBytes with
  | .ok b => b
  | .error _ => []

/-- The TBS bytes of `exCert`. -/
def exTbs : Bytes :=
  match exCert.encodeTbs with
  | .ok b => b
  | .error _ => []

/-- The subject key as a `KeyData` value. -/
def exKd : KeyData := .Ed25519 exKey

/-- The full (tagged) encoding of `exKd`. -/
def exKdBytes : Bytes :=
  match exKd.encode with
  | .ok b => b
  | .error _ => []

/-- A verifier oracle that accepts a signature exactly under the subject
key `exKd` (and under no other key). -/
def cexSubjectVerifier : Verifier := fun k _ _ => k == exKd

/-- A verifier oracle that accepts everything. -/
def allOkVerifier : Verifier := fun _ _ _ => true

/-- A fingerprint oracle that assigns every key the digest `[0]`. -/
def zeroFp : FpOracle := fun _ => [0]

/-! ## The claims -/

/-- C1: the claim states that `validate_at`'s signature check
(`verify_signature`) verifies the certificate's signature against the CA
key stored in `signature_key`, so that success implies validity under
`signature_key`.  The source instead calls
`self.public_key.verify(...)` (certificate.rs line 380) — the subject
key — contradicting both the spec and the function's own doc comment
("It verifies the signature in the certificate matches the CA public key
in the certificate").  Concretely: under an external verifier that
accepts signatures exactly under the subject key, `verify_signature`
succeeds although the signature is invalid under `signature_key`. -/
theorem claim_C1 :
    Certificate.verifySignature cexSubjectVerifier exCert = .ok () ∧
    Certificate.encodeTbs exCert = .ok exTbs ∧
    cexSubjectVerifier exCert.public_key exTbs exCert.signature = true ∧
    cexSubjectVerifier exCert.signature_key exTbs exCert.signature = false := by
  refine ⟨?_, ?_, ?_, ?_⟩ <;> decide

/-- C2 (counterexample): the claim asserts
`from_bytes(to_bytes(c)) = c` with all fields *including `comment`*
equal; `exCert` is a valid certificate with a non-empty comment, its
binary roundtrip returns the certificate with the comment reset to
empty, so the roundtrip result differs from `exCert`. -/
theorem claim_C2_counterexample :
    exCert.valid = true ∧ exCert.toBytes = .ok exBytes ∧
    Certificate.fromBytes exBytes = .ok exCertNC ∧
    Certificate.fromBytes exBytes ≠ .ok exCert ∧ exCertNC ≠ exCert := by
  refine ⟨?_, ?_, ?_, ?_, ?_⟩ <;> decide

/-- C2 (amended): for every valid `KeyData` value, `decode ∘ encode` is
the identity; for every valid `Certificate`, `from_bytes ∘ to_bytes`
returns the certificate with every field preserved except `comment`,
which is reset to empty — hence full equality exactly when the comment
is empty (the comment travels only in the textual envelope). -/
theorem claim_C2 (k : KeyData) (c : Certificate) (kb cb : Bytes)
    (hkv : k.valid = true) (hke : k.encode = .ok kb)
    (hcv : c.valid = true) (hce : c.toBytes = .ok cb) :
    KeyData.decode kb = .ok (k, []) ∧
    Certificate.fromBytes cb = .ok { c with comment := [] } ∧
    (c.comment = [] → Certificate.fromBytes cb = .ok c) := by
  have hkd : KeyData.decode kb = .ok (k, []) := by
    have := KeyData.keydata_decode_encode k hkv kb [] hke
    simpa using this
  have hce' : c.encode = .ok cb := hce
  have hcert : Certificate.fromBytes cb = .ok { c with comment := [] } := by
    have hdec := Certificate.cert_decode_encode c hcv cb [] hce'
    rw [List.append_nil] at hdec
    rw [Certificate.fromBytes, hdec]
    simp
  refine ⟨hkd, hcert, fun hcm => ?_⟩
  have hid : ({ c with comment := [] } : Certificate) = c := by
    cases c
    simp_all
  rw [hid] at hcert
  exact hcert

set_option maxRecDepth 10000 in
/-- C2 witness: the amended roundtrip at the concrete certificate
`exCertNC` (empty comment: full equality) and key `exKd`. -/
theorem claim_C2_witness :
    KeyData.decode exKdBytes = .ok (exKd, []) ∧
    Certificate.fromBytes exBytes = .ok exCertNC :=
  ⟨(claim_C2 exKd exCertNC exKdBytes exBytes (by decide) (by decide)
      (by decide) (by decide)).1,
   (claim_C2 exKd exCertNC exKdBytes exBytes (by decide) (by decide)
      (by decide) (by decide)).2.2 (by decide)⟩

/-- C3 (counterexample): the claim asserts that a curve mismatch in the
Security-Key ECDSA/NIST-P256 arm fails with the `Algorithm` error; the
source (key_data.rs line 201) returns `Error::Crypto` there: decoding an
SK-ECDSA body whose embedded curve identifier is `nistp384` yields
`Crypto`, not `Algorithm`. -/
theorem claim_C3_counterexample :
    KeyData.decodeAs .SkEcdsaSha2NistP256 (strE (ascii "nistp384")) =
      .error .Crypto ∧
    Error.Crypto ≠ Error.Algorithm := by
  refine ⟨?_, ?_⟩ <;> decide

/-- C3 (amended): the plain ECDSA arm rejects a curve identifier that
differs from the one implied by the supplied algorithm with the
`Algorithm` error (the algorithm-confusion guard); the Security-Key
ECDSA/NIST-P256 arm rejects an embedded curve other than nistp256 with
the `Crypto` error. -/
theorem claim_C3 (c1 c2 : EcdsaCurve) (pt : Bytes)
    (hpt : pt.length < u32Lim) (hne : c1 ≠ c2) :
    (∀ r, KeyData.decodeAs (.Ecdsa c2) (c1.encode ++ strE pt ++ r) =
      .error .Algorithm) ∧
    (c1 ≠ .NistP256 →
      ∀ r, KeyData.decodeAs .SkEcdsaSha2NistP256 (c1.encode ++ r) =
        .error .Crypto) := by
  constructor
  · intro r
    rw [KeyData.decodeAs]
    simp only [List.append_assoc, EcdsaPublicKey.decode,
      EcdsaCurve.curve_decode_encode, decodeStr_strE _ hpt]
    simp [hne]
  · intro hne256 r
    rw [KeyData.decodeAs]
    simp [EcdsaCurve.curve_decode_encode, hne256]

/-- C3 witness: the amended behaviour at curve `nistp384` against
algorithm curve `nistp256`, with a one-byte point. -/
theorem claim_C3_witness :
    KeyData.decodeAs (.Ecdsa .NistP256)
      (EcdsaCurve.NistP384.encode ++ strE [4]) = .error .Algorithm ∧
    KeyData.decodeAs .SkEcdsaSha2NistP256 (EcdsaCurve.NistP384.encode) =
      .error .Crypto := by
  obtain ⟨ha, hb⟩ :=
    claim_C3 .NistP384 .NistP256 [4] (by decide) (by decide)
  constructor
  · have := ha []
    simpa using this
  · have := hb (by decide) []
    simpa using this

/-- C4: decoding an options-map wire buffer (region prefix plus encoded
(name, value) pairs) succeeds into the map exactly when the names are
strictly ascending in byte-lexicographic order, and fails with the
`FormatEncoding` error as soon as any entry after the first is not
strictly greater than its predecessor — duplicates and out-of-order
entries are rejected, never silently reordered. -/
theorem claim_C4 (entries : List (Bytes × Bytes)) (body r : Bytes)
    (he : encodePairs entries = .ok body) (hlt : body.length < u32Lim) :
    OptionsMap.decode (strE body ++ r) =
      if strictAscFrom none (entries.map Prod.fst) = true then
        .ok (OptionsMap.fromIter entries, r)
      else .error .FormatEncoding := by
  have hspec :=
    optionsLoopF_spec entries body.length none body he (Nat.le_refl _)
  rw [OptionsMap.decode, readNested, decodeStr_strE _ hlt]
  by_cases hasc : strictAscFrom none (entries.map Prod.fst) = true
  · rw [if_pos hasc] at hspec ⊢
    simp [optionsLoop, hspec]
  · rw [if_neg hasc] at hspec ⊢
    simp [optionsLoop, hspec]

/-- The strictly ascending two-entry list used by the C4 witness. -/
def c4Entries : List (Bytes × Bytes) :=
  [(ascii "a", ascii "1"), (ascii "b", ascii "2")]

/-- Encoded pair bytes of `c4Entries`. -/
def c4Body : Bytes :=
  match encodePairs c4Entries with
  | .ok b => b
  | .error _ => []

/-- C4 witness: the ascending two-entry buffer decodes into the map. -/
theorem claim_C4_witness :
    OptionsMap.decode (strE c4Body) =
      .ok (OptionsMap.fromIter c4Entries, []) := by
  have := claim_C4 c4Entries c4Body [] (by decide) (by decide)
  rw [if_pos (by decide)] at this
  simpa using this

/-- C5: whenever the signature check and the trust-anchor check pass,
`validate_at` is determined by the half-open time window: it succeeds
exactly when `valid_after ≤ t < valid_before` and otherwise fails with
the `CertificateValidation` error. -/
theorem claim_C5 (V : Verifier) (F : FpOracle) (c : Certificate) (t : Nat)
    (fps : List Bytes) (hsig : c.verifySignature V = .ok ())
    (hfp : fps.any (fun f => f = F c.signature_key) = true) :
    Certificate.validateAt V F c t fps =
      if c.valid_after ≤ t ∧ t < c.valid_before then .ok ()
      else .error .CertificateValidation := by
  rw [Certificate.validateAt, hsig]
  simp [KeyData.fingerprint, hfp]

set_option maxRecDepth 100000 in
/-- C5 witness: `exCert` has `valid_after = 100`, `valid_before = 200`;
with passing signature and trust-anchor checks, validation succeeds at
`t = 100` and `t = 199` and fails with `CertificateValidation` at
`t = 99` and `t = 200`. -/
theorem claim_C5_witness :
    Certificate.validateAt allOkVerifier zeroFp exCert 100 [[0]] = .ok () ∧
    Certificate.validateAt allOkVerifier zeroFp exCert 199 [[0]] = .ok () ∧
    Certificate.validateAt allOkVerifier zeroFp exCert 99 [[0]] =
      .error .CertificateValidation ∧
    Certificate.validateAt allOkVerifier zeroFp exCert 200 [[0]] =
      .error .CertificateValidation := by
  refine ⟨?_, ?_, ?_, ?_⟩ <;>
  · rw [claim_C5 allOkVerifier zeroFp exCert _ [[0]] (by decide) (by decide)]
    decide

/-- C6: whenever the SHA-256 fingerprint of `signature_key` matches none
of the caller-supplied trusted fingerprints, `validate_at` fails with the
`CertificateValidation` error — for every verifier behaviour and every
timestamp (in particular for the empty fingerprint set), provided only
that the TBS region encodes. -/
theorem claim_C6 (V : Verifier) (F : FpOracle) (c : Certificate) (t : Nat)
    (fps : List Bytes) (henc : ∃ tbs, c.encodeTbs = .ok tbs)
    (hfp : fps.any (fun f => f = F c.signature_key) = false) :
    Certificate.validateAt V F c t fps = .error .CertificateValidation := by
  obtain ⟨tbs, htbs⟩ := henc
  rw [Certificate.validateAt, Certificate.verifySignature, htbs]
  cases hV : V c.public_key tbs c.signature <;>
    simp [hV, KeyData.fingerprint, hfp]

set_option maxRecDepth 100000 in
/-- C6 witness: with an all-accepting verifier, a timestamp inside the
window, and an empty trusted-fingerprint set, validation of `exCert`
still fails with `CertificateValidation`. -/
theorem claim_C6_witness :
    Certificate.verifySignature allOkVerifier exCert = .ok () ∧
    Certificate.validateAt allOkVerifier zeroFp exCert 100 [] =
      .error .CertificateValidation :=
  ⟨by decide,
   claim_C6 allOkVerifier zeroFp exCert 100 [] ⟨exTbs, by decide⟩
     (by decide)⟩

/-- C7: when the binary payload of the textual envelope decodes fully as
a certificate but the envelope's algorithm-identifier token differs from
the decoded certificate's `algorithm.as_certificate_str()`,
`from_openssh` fails with the `Algorithm` error. -/
theorem claim_C7 (e : Encapsulation) (c : Certificate)
    (hdec : Certificate.decode e.base64_data = .ok (c, []))
    (hne : e.algorithm_id ≠ c.algorithm.asCertificateStr) :
    Certificate.fromOpenssh e = .error .Algorithm := by
  rw [Certificate.fromOpenssh, hdec]
  simp [hne]

set_option maxRecDepth 100000 in
/-- C7 witness: `exCert`'s payload relabelled with the RSA certificate
algorithm identifier is rejected with `Algorithm`. -/
theorem claim_C7_witness :
    Certificate.fromOpenssh
      ⟨ascii "ssh-rsa-cert-v01@openssh.com", exBytes, []⟩ =
      .error .Algorithm :=
  claim_C7 ⟨ascii "ssh-rsa-cert-v01@openssh.com", exBytes, []⟩ exCertNC
    (by decide) (by decide)

/-- C8: whenever a structurally complete certificate decodes from a
buffer but bytes remain afterward, `from_bytes` on that buffer fails
with the `Length` error, and `from_openssh` on an envelope carrying that
buffer as its decoded base64 payload fails with the `Length` error as
well (whatever the envelope's algorithm identifier and comment are). -/
theorem claim_C8 (buf : Bytes) (c : Certificate) (rest : Bytes)
    (hdec : Certificate.decode buf = .ok (c, rest)) (hne : rest ≠ []) :
    Certificate.fromBytes buf = .error .Length ∧
    ∀ a m : Bytes,
      Certificate.fromOpenssh ⟨a, buf, m⟩ = .error .Length := by
  have hemp : rest.isEmpty = false := by
    cases rest with
    | nil => exact absurd rfl hne
    | cons x t => rfl
  constructor
  · rw [Certificate.fromBytes, hdec]
    simp [hemp]
  · intro a m
    rw [Certificate.fromOpenssh]
    simp only [hdec]
    simp [hemp]

set_option maxRecDepth 100000 in
/-- C8 witness: `exCert`'s encoding with one trailing zero byte decodes
completely with the zero left over, and both entry points reject it with
`Length`. -/
theorem claim_C8_witness :
    Certificate.fromBytes (exBytes ++ [0]) = .error .Length ∧
    Certificate.fromOpenssh
      ⟨exCert.algorithm.asCertificateStr, exBytes ++ [0], []⟩ =
      .error .Length := by
  obtain ⟨h1, h2⟩ :=
    claim_C8 (exBytes ++ [0]) exCertNC [0] (by decide) (by decide)
  exact ⟨h1, h2 exCert.algorithm.asCertificateStr []⟩

/-- C9: for every valid certificate (including one with a non-empty
comment), parsing the envelope produced by `to_openssh` returns a
certificate equal to the original in every field; in particular the
comment, carried in the envelope rather than the binary payload, is
restored verbatim. -/
theorem claim_C9 (c : Certificate) (e : Encapsulation)
    (hv : c.valid = true) (he : c.toOpenssh = .ok e) :
    Certificate.fromOpenssh e = .ok c := by
  rw [Certificate.toOpenssh] at he
  cases hb : c.encode with
  | error e2 =>
    rw [hb] at he
    exact absurd he (by simp)
  | ok bytes =>
    rw [hb] at he
    cases he
    have hdec := Certificate.cert_decode_encode c hv bytes [] hb
    rw [List.append_nil] at hdec
    rw [Certificate.fromOpenssh]
    simp only [hdec]
    have hid : ({ { c with comment := [] } with
        comment := c.comment } : Certificate) = c := by
      cases c
      rfl
    simp [hid]

set_option maxRecDepth 100000 in
/-- C9 witness: the textual roundtrip of `exCert`, whose comment is
`user@example.com`. -/
theorem claim_C9_witness :
    Certificate.fromOpenssh
      ⟨exCert.algorithm.asCertificateStr, exBytes, exCert.comment⟩ =
      .ok exCert :=
  claim_C9 exCert ⟨exCert.algorithm.asCertificateStr, exBytes,
    exCert.comment⟩ (by decide) (by decide)

/-- C10: for both Security-Key variants the decoder reads and discards
the length-prefixed application string without comparing it to `"ssh:"`
— any well-formed application string is accepted — while
`encode_key_data` and `encoded_key_data_len` always emit and count
exactly the fixed string `"ssh:"`; consequently re-encoding a value
decoded from a wire body whose application string was not `"ssh:"`
produces different bytes than that body. -/
theorem claim_C10 (key : Ed25519PublicKey) (pt : EcdsaNistP256PublicKey)
    (app : Bytes) (hk : List.length key = 32) (hp : List.length pt = 65)
    (ha : app.length < u32Lim) :
    (∀ r, KeyData.decodeAs .SkEd25519 (strE key ++ strE app ++ r) =
      .ok (.SkEd25519 key, r)) ∧
    (∀ r, KeyData.decodeAs .SkEcdsaSha2NistP256
        (EcdsaCurve.NistP256.encode ++ strE pt ++ strE app ++ r) =
      .ok (.SkEcdsaSha2NistP256 pt, r)) ∧
    KeyData.encodeKeyData (.SkEd25519 key) =
      .ok (strE key ++ strE SK_APPLICATION_STRING) ∧
    KeyData.encodeKeyData (.SkEcdsaSha2NistP256 pt) =
      .ok (EcdsaCurve.NistP256.encode ++ strE pt ++
        strE SK_APPLICATION_STRING) ∧
    KeyData.encodedKeyDataLen (.SkEd25519 key) =
      .ok (4 + List.length key + (4 + SK_APPLICATION_STRING.length)) ∧
    (app ≠ SK_APPLICATION_STRING →
      strE key ++ strE SK_APPLICATION_STRING ≠ strE key ++ strE app) := by
  have hklt : (List.length key : Nat) < u32Lim := by rw [hk]; decide
  have hplt : (List.length pt : Nat) < u32Lim := by rw [hp]; decide
  have hple : (List.length pt : Nat) ≤ 65 := by rw [hp]
  refine ⟨?_, ?_, ?_, ?_, ?_, ?_⟩
  · intro r
    rw [KeyData.decodeAs]
    simp [Ed25519PublicKey.decode, List.append_assoc,
      decodeStr_strE _ hklt, hk, drainPrefixed_strE _ ha]
  · intro r
    rw [KeyData.decodeAs]
    simp [List.append_assoc, EcdsaCurve.curve_decode_encode,
      readByten_strE 65 pt hple hplt, EcdsaNistP256PublicKey.fromBytes, hp,
      drainPrefixed_strE _ ha]
  · rw [KeyData.encodeKeyData]
    simp [Ed25519PublicKey.encode, eStr_ok _ hklt,
      eStr_ok _ sk_application_string_lt, bind, Except.bind]
  · rw [KeyData.encodeKeyData]
    simp [EcdsaNistP256PublicKey.asBytes, eStr_ok _ hplt,
      eStr_ok _ sk_application_string_lt, bind, Except.bind]
  · have hsk4 : SK_APPLICATION_STRING.length = 4 := by decide
    simp only [KeyData.encodedKeyDataLen, Ed25519PublicKey.encodedLen,
      bytesEncodedLen, checkedSum, bind, Except.bind, hk, hsk4]
    simp [usizeLim]
  · intro hneq heq
    have hcancel : strE SK_APPLICATION_STRING = strE app :=
      List.append_cancel_left heq
    have := strE_inj SK_APPLICATION_STRING app [] []
      sk_application_string_lt ha (by simpa using hcancel)
    exact hneq (by simpa using this.1.symm)

/-- C10 witness: a 32-byte SK-Ed25519 wire body whose application string
is `"x"` decodes, and its re-encoding (application string `"ssh:"`)
differs from the original body. -/
theorem claim_C10_witness :
    KeyData.decodeAs .SkEd25519 (strE exKey ++ strE (ascii "x")) =
      .ok (.SkEd25519 exKey, []) ∧
    KeyData.encodeKeyData (.SkEd25519 exKey) =
      .ok (strE exKey ++ strE SK_APPLICATION_STRING) ∧
    strE exKey ++ strE SK_APPLICATION_STRING ≠
      strE exKey ++ strE (ascii "x") := by
  obtain ⟨ha, hb, hc, hd, he, hf⟩ :=
    claim_C10 exKey exPt (ascii "x") (by decide) (by decide) (by decide)
  refine ⟨?_, hc, hf (by decide)⟩
  have := ha []
  simpa using this
